import Mathlib

/-!
Verification of the deep-pagination sequence builder.

The definitions below are a shallow embedding of the TypeScript source
(src/unnamed/part_000).  Page tokens are modelled by the type Tok: a token is
either a concrete page number or the gap symbol.  The custom gap symbol of the
source is a string compared with strict equality against numeric tokens, so it
never collides with a page number; it is therefore modelled by the single
constructor Tok.gap.  JavaScript numbers are modelled by Int (the library
validates integrality up front, and the claims only concern integer inputs);
the JavaScript remainder operator, whose result takes the sign of the
dividend, is modelled by Int.tmod.  Out-of-range array reads, which yield
undefined in JavaScript and make every comparison false, are modelled by
Option reads or by explicit bound guards.
-/

set_option maxHeartbeats 1000000
set_option maxRecDepth 100000

namespace DeepPagination

/-- A pagination token: a page number or the gap symbol. -/
inductive Tok where
  | gap : Tok
  | num : Int → Tok
deriving DecidableEq, Repr

/-- JavaScript remainder: truncating division, result has the dividend's sign. -/
def jsmod (a b : Int) : Int := Int.tmod a b

/-- Default jump values (source constant DEFAULT_JUMP_VALUES). -/
def DEFAULT_JUMP_VALUES : List Int :=
  [50000, 25000, 10000, 5000, 1000, 500, 250, 100, 50, 25, 10, 5, 1]

/-- Source constant DEFAULT_PAD. -/
def DEFAULT_PAD : Int := 2

/-- Source findLowerValuesFor.  The margin loop is an iteration of a step
function; a negative index access in the loop body yields undefined in
JavaScript, making the comparison false, which the explicit sign guard
reproduces. -/
def findLowerValuesFor (mn mx : Int) (iteration pad : Nat) (jumps : List Int) : Int :=
  let jumpIndex : Nat := (jumps.findIdx? (fun j => j < mx)).getD (jumps.length - 1)
  let stepM : Nat → Nat := fun m =>
    if 0 ≤ (jumpIndex : Int) - m - 1 ∧ (jumpIndex : Int) - m - 1 < (jumps.length : Int) ∧
        mx - jsmod mx (jumps.getD jumpIndex 0) - jumps.getD (jumpIndex - m - 1) 0 > mn
    then m + 1 else m
  let margin : Nat := stepM^[pad - iteration] 0
  if iteration = 0 then
    if jsmod mx (jumps.getD jumpIndex 0) = 0 then
      if margin ≠ 0 then
        mx - jumps.getD jumpIndex 0 - jumps.getD (jumpIndex - margin) 0
      else
        mx - jumps.getD jumpIndex 0
    else
      if margin ≠ 0 then
        mx - jsmod mx (jumps.getD jumpIndex 0) - jumps.getD (jumpIndex - margin) 0
      else
        mx - jsmod mx (jumps.getD jumpIndex 0)
  else
    mx - jumps.getD (jumpIndex - margin) 0

/-- Source findLargerValuesFor. -/
def findLargerValuesFor (mn mx : Int) (iteration : Nat) (jumps : List Int) : Int :=
  let j0 : Nat := (jumps.findIdx? (fun j => j < mx ∧ mn - jsmod mn j + j < mx)).getD
    (jumps.length - 1)
  let stepJ : Nat → Nat := fun ji =>
    if ji + 1 < jumps.length ∧
        mn - jsmod mn (jumps.getD (ji + 1) 0) + jumps.getD (ji + 1) 0 < mx
    then ji + 1 else ji
  let ji : Nat := stepJ^[iteration] j0
  if jsmod mn (jumps.getD ji 0) = 0 then mn + jumps.getD ji 0
  else mn - jsmod mn (jumps.getD ji 0) + jumps.getD ji 0

/-- The second-to-last element, as the source reads pagination at length - 2
(undefined, hence never equal to a number, when fewer than two elements). -/
def secondLast? (l : List Tok) : Option Tok := l.dropLast.getLast?

/-- Whether positions i and i+1 of the list form a discontinuity in the sense
of the source's backward scan: any pair involving the gap symbol counts, and a
numeric pair counts when the values are not consecutive. -/
def discontAt (l : List Tok) (i : Nat) : Bool :=
  match l[i]?, l[i + 1]? with
  | some (Tok.num x), some (Tok.num y) => decide (x + 1 ≠ y)
  | some _, some _ => true
  | _, _ => false

/-- Backward scan of the source's collapse handler, from index i down to 0,
returning the first discontinuity position plus one. -/
def gapScanFrom (l : List Tok) : Nat → Option Nat
  | 0 => if discontAt l 0 then some 1 else none
  | i + 1 => if discontAt l (i + 1) then some (i + 2) else gapScanFrom l i

/-- The gapAt computation of the source: the rightmost discontinuity position
plus one, scanning from length - 2 downwards, none when the list is shorter
than two or has no discontinuity. -/
def gapScan (l : List Tok) : Option Nat :=
  if 2 ≤ l.length then gapScanFrom l (l.length - 2) else none

/-- The final small-gap fix of addPage: rewrite the window at indices 1 and 2
when it reads gap, 3. -/
def fixSmallGap (l : List Tok) : List Tok :=
  if l[1]? = some Tok.gap ∧ l[2]? = some (Tok.num 3) then l.set 1 (Tok.num 2) else l

/-- The list built by the collapse branch of addPage before the optional gap
re-insertion: the trailing gap replaced by page - 1, then page pushed. -/
def collapseList (pag : List Tok) (page : Int) : List Tok :=
  pag.dropLast ++ [Tok.num (page - 1), Tok.num page]

/-- Source addPage.  The in-place splice of the source (push a duplicate, shift
the tail right by one, overwrite the discontinuity slot with the gap) is
exactly an insertion of the gap symbol at the scanned position, which the
functional form uses directly. -/
def addPage (pag : List Tok) (page : Int) (position : Int) : List Tok :=
  fixSmallGap
    (if pag.getLast? = some Tok.gap ∧ secondLast? pag = some (Tok.num (page - 2)) then
      if position < 1 then
        match gapScan (collapseList pag page) with
        | some g => (collapseList pag page).insertIdx g Tok.gap
        | none => collapseList pag page
      else collapseList pag page
    else if pag.getLast? ≠ some (Tok.num page) then pag ++ [Tok.num page]
    else pag)

/-- Source minPagesForComplex. -/
def minPagesForComplex (pad : Nat) : Nat := 7 + pad * 4

/-- The chain of raw candidate values computed by the left-side batch of
generatePaginationArray: value starts at current - pad - 1 and is rewritten by
findLowerValuesFor at each iteration index i. -/
def lowerChainFrom (pad : Nat) (jumps : List Int) : Nat → Int → Nat → List Int
  | _, _, 0 => []
  | i, value, fuel + 1 =>
    let v := findLowerValuesFor 1 value i pad jumps
    v :: lowerChainFrom pad jumps (i + 1) v fuel

/-- Parameters of one generatePaginationArray run. -/
structure Ctx where
  current : Int
  max : Int
  pad : Nat
  jumps : List Int

/-- The raw left-side chain of a run (before filtering). -/
def chainRaw (ctx : Ctx) : List Int :=
  lowerChainFrom ctx.pad ctx.jumps 0 (ctx.current - ctx.pad - 1) (ctx.pad + 1)

/-- The left-side batch of generatePaginationArray: compute the chain, keep the
values exceeding 1 that are not present yet, add them in ascending order, then
push one gap symbol. -/
def leftBatch (ctx : Ctx) (pag : List Tok) : List Tok :=
  let temp := ((chainRaw ctx).filter (fun v => 1 < v ∧ Tok.num v ∉ pag)).reverse
  (temp.foldl (fun acc p => addPage acc p (-1)) pag) ++ [Tok.gap]

/-- The anchor value computed by the right-side branch: the base value is the
last entry, or the raw page index when that entry is the gap symbol. -/
def rightAnchor (ctx : Ctx) (pag : List Tok) (page : Int) : Int :=
  findLargerValuesFor
    (match pag.getLast? with
     | some (Tok.num n) => n
     | _ => page)
    ctx.max (minPagesForComplex ctx.pad - pag.length - 2) ctx.jumps

/-- One iteration of the page loop of generatePaginationArray.  The source's
continue statements turn the body into this conditional chain; the left-side
branch with a failed inner guard falls through to the middle-range test in the
source, which the merged condition reproduces. -/
def stepPage (ctx : Ctx) (pag : List Tok) (page : Int) : List Tok :=
  if page = 1 ∨ page = ctx.max ∨ page = ctx.current then
    addPage pag page 0
  else if page < ctx.current ∧ Tok.gap ∉ pag ∧
      pag.length < ctx.pad + 2 ∧ 0 < ctx.pad then
    leftBatch ctx pag
  else if ctx.current - ctx.pad ≤ page ∧ page ≤ ctx.current + ctx.pad then
    addPage pag page 0
  else if ctx.current < page then
    if ctx.current + ctx.pad + 1 = page ∧ page ≠ ctx.max - 1 then
      pag ++ [Tok.gap]
    else if pag.length < minPagesForComplex ctx.pad - 1 then
      if rightAnchor ctx pag page < ctx.max then
        addPage pag (rightAnchor ctx pag page) 1
      else addPage pag page 1
    else pag
  else pag

/-- The ascending page list 1, 2, ..., n. -/
def pageList (n : Int) : List Int :=
  (List.range n.toNat).map (fun i : Nat => (i : Int) + 1)

/-- Source generatePaginationArray. -/
def generatePaginationArray (current max : Int) (pad : Nat) (jumps : List Int) :
    List Tok :=
  if max < (minPagesForComplex pad : Int) then
    (pageList max).map Tok.num
  else
    (pageList max).foldl (stepPage ⟨current, max, pad, jumps⟩) []

/-- The validation errors of the system, one per violated check; the three
jump-value errors carry the sub-reason. -/
inductive PaginationError where
  | invalidCurrentPage
  | invalidMaxPages
  | currentExceedsMax
  | invalidPad
  | invalidJumpValuesEmpty
  | invalidJumpValuesNonPositive
  | invalidJumpValuesUnsorted
deriving DecidableEq, Repr

/-- The source's descending-order loop over adjacent jump pairs. -/
def descendingStrict : List Int → Bool
  | [] => true
  | [_] => true
  | a :: b :: t => decide (b < a) && descendingStrict (b :: t)

/-- Source validateJumpValues. -/
def validateJumpValues (jumps : List Int) : Except PaginationError Unit :=
  if jumps.isEmpty then Except.error PaginationError.invalidJumpValuesEmpty
  else if !(jumps.all fun j => 0 < j) then
    Except.error PaginationError.invalidJumpValuesNonPositive
  else if !(descendingStrict jumps) then
    Except.error PaginationError.invalidJumpValuesUnsorted
  else Except.ok ()

/-- Source validateInput.  Integrality of the JavaScript numbers cannot be
expressed over Int and is dropped; the source receives pad already defaulted by
destructuring, so the undefined test on pad is vacuous there. -/
def validateInput (current max pad : Int) : Except PaginationError Unit :=
  if current < 1 then Except.error PaginationError.invalidCurrentPage
  else if max < 1 then Except.error PaginationError.invalidMaxPages
  else if max < current then Except.error PaginationError.currentExceedsMax
  else if pad < 0 then Except.error PaginationError.invalidPad
  else Except.ok ()

/-- Source PaginationOptions, with the optional fields as Option values.  The
gap symbol option only renames the gap token and is not modelled. -/
structure PaginationOptions where
  current : Int
  max : Int
  pad : Option Int := none
  jumpValues : Option (List Int) := none
deriving DecidableEq, Repr

/-- Source PaginationResult. -/
structure PaginationResult where
  pages : List Tok
  hasPrevious : Bool
  hasNext : Bool
  totalPages : Int
  currentPage : Int
deriving DecidableEq, Repr

/-- Source generatePagination: default the options, validate, validate the
supplied jump values, then build the page array and the metadata. -/
def generatePagination (o : PaginationOptions) : Except PaginationError PaginationResult :=
  match validateInput o.current o.max (o.pad.getD DEFAULT_PAD) with
  | Except.error e => Except.error e
  | Except.ok _ =>
    match (match o.jumpValues with
      | some js => validateJumpValues js
      | none => Except.ok ()) with
    | Except.error e => Except.error e
    | Except.ok _ =>
      Except.ok
        { pages := generatePaginationArray o.current o.max (o.pad.getD DEFAULT_PAD).toNat
            (o.jumpValues.getD DEFAULT_JUMP_VALUES)
          hasPrevious := decide (1 < o.current)
          hasNext := decide (o.current < o.max)
          totalPages := o.max
          currentPage := o.current }

/-- The run of k consecutive integers starting at a. -/
def runInts (a : Int) : Nat → List Int
  | 0 => []
  | k + 1 => a :: runInts (a + 1) k

/-- The numeric tokens of a token list, in order. -/
def numsOf (l : List Tok) : List Int :=
  l.filterMap (fun t => match t with | Tok.gap => none | Tok.num n => some n)

/-- The pages of a successful run, the empty list on a validation error. -/
def pagesOf (o : PaginationOptions) : List Tok :=
  match generatePagination o with
  | Except.ok r => r.pages
  | Except.error _ => []

/-- The first violated check in the order stated by the specification: current,
max, ordering, pad, then the jump values (after defaulting) checked for
emptiness, positivity and strict descent.  This definition follows the words of
the specification and is compared with the implementation in the claim on
validation. -/
def specFirstError (o : PaginationOptions) : Option PaginationError :=
  if o.current < 1 then some PaginationError.invalidCurrentPage
  else if o.max < 1 then some PaginationError.invalidMaxPages
  else if o.max < o.current then some PaginationError.currentExceedsMax
  else if o.pad.getD 0 < 0 then some PaginationError.invalidPad
  else
    match o.jumpValues with
    | none => none
    | some js =>
      if js = [] then some PaginationError.invalidJumpValuesEmpty
      else if ¬ (∀ j ∈ js, 0 < j) then some PaginationError.invalidJumpValuesNonPositive
      else if ¬ List.Chain' (· > ·) js then some PaginationError.invalidJumpValuesUnsorted
      else none

/-- The request of the concrete scenario claim. -/
def optionsC10 : PaginationOptions := { current := 50, max := 100, pad := some 1 }

/-- The request exhibiting non-monotone numeric tokens. -/
def optionsC7 : PaginationOptions := { current := 1, max := 11, pad := some 0 }

/-- The loop invariant of the complex-mode page loop, stated for the list held
before processing a given page: the list is non-empty, starts with the page
number 1, has no two adjacent equal tokens, a trailing gap is either the only
gap or the right-side gap pushed just after the near-current window, and
during the window the last token tracks the previous page. -/
structure LoopInv (ctx : Ctx) (page : Int) (pag : List Tok) : Prop where
  ne : pag ≠ []
  head : pag.head? = some (Tok.num 1)
  chain : List.Chain' (· ≠ ·) pag
  gapSafe : pag.getLast? = some Tok.gap →
    (Tok.gap ∉ pag.dropLast ∨
      (secondLast? pag = some (Tok.num (ctx.current + ctx.pad)) ∧
       ctx.current + ctx.pad + 1 ≠ ctx.max - 1))
  lastMid : ctx.current < page → page ≤ ctx.current + ctx.pad + 1 →
    pag.getLast? = some (Tok.num (page - 1))

/-- The length invariant of the complex-mode page loop, stated for the list
held before processing a given page.  Before page 3 only the first page has
been placed; once the left batch has run every usable chain value is present,
so a second batch appends nothing new; a trailing gap bounds the list by pad
plus three unless it is the right-side gap, whose marker is recorded; and the
length is bounded piecewise along the scan, reaching minPagesForComplex only
after the final page has been appended. -/
structure LenInv (ctx : Ctx) (page : Int) (pag : List Tok) : Prop where
  start : page ≤ 2 → pag = [Tok.num 1]
  chainMem : 3 ≤ page → 2 < ctx.current → 0 < ctx.pad →
    ∀ v ∈ chainRaw ctx, 1 < v → Tok.num v ∈ pag
  trailGap : pag.getLast? = some Tok.gap →
    ((pag.length : Int) ≤ (ctx.pad : Int) + 3 ∨
      (secondLast? pag = some (Tok.num (ctx.current + ctx.pad)) ∧
       ctx.current + ctx.pad + 1 ≠ ctx.max - 1))
  lenA : page ≤ max 3 (ctx.current - ctx.pad) →
    (pag.length : Int) ≤ (ctx.pad : Int) + 3
  lenB : max 3 (ctx.current - ctx.pad) < page → page ≤ ctx.current + ctx.pad + 1 →
    (pag.length : Int) ≤ (ctx.pad : Int) + 5 + (page - 1 - max 3 (ctx.current - ctx.pad))
  lenC : ctx.current + ctx.pad + 1 < page → page ≤ ctx.max →
    (pag.length : Int) ≤ (minPagesForComplex ctx.pad : Int) - 1
  lenD : ctx.max < page → (pag.length : Int) ≤ (minPagesForComplex ctx.pad : Int)

/-- The lower edge of the near-current window. -/
def winLo (ctx : Ctx) : Int := max 1 (ctx.current - ctx.pad)

/-- The upper edge of the near-current window. -/
def winHi (ctx : Ctx) : Int := min ctx.max (ctx.current + ctx.pad)

/-- The token list holds, from some index on, the consecutive page numbers
a, a + 1 and so on, n of them, at n consecutive positions. -/
def hasRun (l : List Tok) (a : Int) (n : Nat) : Prop :=
  ∃ i : Nat, ∀ j : Nat, j < n → l[i + j]? = some (Tok.num (a + j))

/-- The token list ends with the n consecutive page numbers starting at a. -/
def endsWithRun (l : List Tok) (a : Int) (n : Nat) : Prop :=
  ∃ pre, l = pre ++ (runInts a n).map Tok.num

/-- The invariant of the window phase: before processing a page of the window
the list either ends with the part of the window scanned so far, or ends with
a gap pushed by the left batch whose collapse is armed: the second-to-last
token is the predecessor of the previous page, so the next append closes the
gap and restores the run. -/
def WinInv (ctx : Ctx) (page : Int) (pag : List Tok) : Prop :=
  endsWithRun pag (winLo ctx) (page - winLo ctx).toNat ∨
  (page ≤ ctx.current ∧
    endsWithRun pag.dropLast (winLo ctx) (page - 1 - winLo ctx).toNat ∧
    pag.getLast? = some Tok.gap ∧
    secondLast? pag = some (Tok.num (page - 2)))

/-!  Theorems.  -/

/-- The ok result of validateInput characterised. -/
theorem validateInput_ok {c m p : Int} :
    validateInput c m p = Except.ok () ↔ 1 ≤ c ∧ 1 ≤ m ∧ c ≤ m ∧ 0 ≤ p := by
  unfold validateInput
  split_ifs <;> simp <;> omega

/-- The descending-order loop decides strict descent of adjacent pairs. -/
theorem descendingStrict_iff (l : List Int) :
    descendingStrict l = true ↔ List.Chain' (· > ·) l := by
  induction l with
  | nil => simp [descendingStrict]
  | cons a t ih =>
    cases t with
    | nil => simp [descendingStrict]
    | cons b t' =>
      simp only [descendingStrict, Bool.and_eq_true, decide_eq_true_eq,
        List.chain'_cons] at ih ⊢
      rw [ih]

/-- The ok result of validateJumpValues characterised. -/
theorem validateJumpValues_ok {js : List Int} :
    validateJumpValues js = Except.ok () ↔
      js ≠ [] ∧ (∀ j ∈ js, 0 < j) ∧ List.Chain' (· > ·) js := by
  unfold validateJumpValues
  rw [← descendingStrict_iff]
  split_ifs with h1 h2 h3 <;>
    simp_all [List.isEmpty_iff, List.all_eq_true]

/-- Unfolding of a successful generatePagination call: the validation facts and
the exact shape of the result. -/
theorem generatePagination_ok {o : PaginationOptions} {r : PaginationResult}
    (h : generatePagination o = Except.ok r) :
    1 ≤ o.current ∧ o.current ≤ o.max ∧ 0 ≤ o.pad.getD DEFAULT_PAD ∧
    o.jumpValues.getD DEFAULT_JUMP_VALUES ≠ [] ∧
    (∀ j ∈ o.jumpValues.getD DEFAULT_JUMP_VALUES, 0 < j) ∧
    r = { pages := generatePaginationArray o.current o.max
            (o.pad.getD DEFAULT_PAD).toNat (o.jumpValues.getD DEFAULT_JUMP_VALUES)
          hasPrevious := decide (1 < o.current)
          hasNext := decide (o.current < o.max)
          totalPages := o.max
          currentPage := o.current } := by
  unfold generatePagination at h
  rcases hv : validateInput o.current o.max (o.pad.getD DEFAULT_PAD) with e | u
  · rw [hv] at h; exact absurd h (by simp)
  · rw [hv] at h
    dsimp only at h
    cases u
    obtain ⟨h1, h2, h3, h4⟩ := validateInput_ok.mp hv
    cases hj : o.jumpValues with
    | none =>
      rw [hj] at h
      dsimp only at h
      simp only [Except.ok.injEq] at h
      refine ⟨h1, h3, h4, by decide, by decide, h.symm⟩
    | some js =>
      rw [hj] at h
      dsimp only at h
      rcases hw : validateJumpValues js with e | u2
      · rw [hw] at h; exact absurd h (by simp)
      · rw [hw] at h
        dsimp only at h
        cases u2
        simp only [Except.ok.injEq] at h
        obtain ⟨w1, w2, -⟩ := validateJumpValues_ok.mp hw
        exact ⟨h1, h3, h4, by simpa using w1, by simpa using w2, h.symm⟩

/-- C9.  For every valid request the returned metadata satisfies hasPrevious
iff current exceeds 1, hasNext iff current is below max, totalPages equals max
and currentPage equals current. -/
theorem c9_metadata {o : PaginationOptions} {r : PaginationResult}
    (h : generatePagination o = Except.ok r) :
    r.hasPrevious = decide (1 < o.current) ∧ r.hasNext = decide (o.current < o.max) ∧
    r.totalPages = o.max ∧ r.currentPage = o.current := by
  obtain ⟨-, -, -, -, -, hr⟩ := generatePagination_ok h
  subst hr
  exact ⟨rfl, rfl, rfl, rfl⟩

/-- Witness for the metadata claim at the request with current 3 and max 5. -/
theorem c9_metadata_witness :
    ∃ r, generatePagination { current := 3, max := 5 } = Except.ok r ∧
      (r.hasPrevious = decide ((1 : Int) < 3) ∧ r.hasNext = decide ((3 : Int) < 5) ∧
       r.totalPages = 5 ∧ r.currentPage = 3) := by
  refine ⟨_, rfl, c9_metadata (o := { current := 3, max := 5 }) rfl⟩

/-- C4.  generatePagination raises an error exactly on malformed requests, and
the raised error is the first violated check in the specified order: current,
max, ordering, pad, then the defaulted jump values checked for emptiness,
positivity and strict descent. -/
theorem c4_validation_first_error (o : PaginationOptions) (e : PaginationError) :
    generatePagination o = Except.error e ↔ specFirstError o = some e := by
  have hpad : (o.pad.getD 0 < 0) ↔ o.pad.getD DEFAULT_PAD < 0 := by
    cases o.pad <;> simp [DEFAULT_PAD]
  unfold generatePagination specFirstError validateInput validateJumpValues
  cases hj : o.jumpValues with
  | none =>
    simp only [Option.getD_none, hpad]
    split_ifs <;> simp_all
  | some js =>
    simp only [Option.getD_some, hpad]
    have he : (js.isEmpty = true) ↔ js = [] := List.isEmpty_iff
    have ha : (js.all fun j => 0 < j) = true ↔ ∀ j ∈ js, 0 < j := by
      simp [List.all_eq_true]
    have hc := descendingStrict_iff js
    split_ifs <;> simp_all <;>
      (exfalso
       obtain ⟨x, hx1, hx2⟩ := ‹∃ x ∈ js, x ≤ 0›
       exact absurd (‹∀ j ∈ js, 0 < j› x hx1) (by omega))

/-- Witness for the validation claim: a request with current 0 raises the
current-page error. -/
theorem c4_validation_witness :
    generatePagination { current := 0, max := 5 } =
      Except.error PaginationError.invalidCurrentPage :=
  (c4_validation_first_error { current := 0, max := 5 }
    PaginationError.invalidCurrentPage).mpr (by decide)

/-- The page list 1..n mapped to tokens has no gap symbol. -/
theorem gap_not_mem_map_num (l : List Int) : Tok.gap ∉ l.map Tok.num := by
  simp

/-- C3.  Below the complex threshold the pages are exactly the ascending run
from 1 to max, with no gap symbol. -/
theorem c3_simple_mode {o : PaginationOptions} {r : PaginationResult}
    (h : generatePagination o = Except.ok r)
    (hsimple : o.max < 7 + (o.pad.getD DEFAULT_PAD) * 4) :
    r.pages = (pageList o.max).map Tok.num ∧ Tok.gap ∉ r.pages := by
  obtain ⟨h1, h2, hp, -, -, hr⟩ := generatePagination_ok h
  subst hr
  have hm : o.max < (minPagesForComplex (o.pad.getD DEFAULT_PAD).toNat : Int) := by
    unfold minPagesForComplex
    push_cast
    omega
  constructor
  · show generatePaginationArray _ _ _ _ = _
    unfold generatePaginationArray
    rw [if_pos hm]
  · show Tok.gap ∉ generatePaginationArray _ _ _ _
    unfold generatePaginationArray
    rw [if_pos hm]
    exact gap_not_mem_map_num _

/-- Witness for the simple-mode claim at current 3, max 5, default pad. -/
theorem c3_simple_mode_witness :
    ∃ r, generatePagination { current := 3, max := 5 } = Except.ok r ∧
      ((5 : Int) < 7 + ((none : Option Int).getD DEFAULT_PAD) * 4) ∧
      (r.pages = (pageList 5).map Tok.num ∧ Tok.gap ∉ r.pages) := by
  refine ⟨_, rfl, by decide, c3_simple_mode (o := { current := 3, max := 5 }) rfl (by decide)⟩

/-- Numeric tokens of a pure numeric list. -/
theorem numsOf_map_num (l : List Int) : numsOf (l.map Tok.num) = l := by
  induction l with
  | nil => rfl
  | cons a t ih => simpa [numsOf] using ih

/-- The ascending page list is strictly increasing. -/
theorem range_map_eq_runInts (a : Int) :
    ∀ k : Nat, (List.range k).map (fun i : Nat => a + (i : Int)) = runInts a k := by
  intro k
  induction k generalizing a with
  | zero => rfl
  | succ k ih =>
    rw [List.range_succ_eq_map]
    simp only [List.map_cons, List.map_map, runInts]
    congr 1
    · simp
    · rw [← ih (a + 1)]
      refine List.map_congr_left ?_
      intro i hi
      simp only [Function.comp_apply]
      push_cast
      omega

/-- The page list is the run of consecutive integers starting at 1. -/
theorem pageList_eq_runInts (n : Int) : pageList n = runInts 1 n.toNat := by
  rw [← range_map_eq_runInts 1 n.toNat]
  unfold pageList
  refine List.map_congr_left ?_
  intro i hi
  omega

theorem head?_runInts (a : Int) (k : Nat) (h : 0 < k) :
    (runInts a k).head? = some a := by
  cases k with
  | zero => omega
  | succ k => rfl

theorem chain'_lt_runInts (a : Int) (k : Nat) : List.Chain' (· < ·) (runInts a k) := by
  induction k generalizing a with
  | zero => exact List.chain'_nil
  | succ k ih =>
    rw [runInts, List.chain'_cons']
    refine ⟨?_, ih (a + 1)⟩
    intro b hb
    cases k with
    | zero => simp [runInts] at hb
    | succ k2 =>
      rw [head?_runInts _ _ (Nat.succ_pos _)] at hb
      cases hb
      omega

theorem chain'_lt_pageList (n : Int) : List.Chain' (· < ·) (pageList n) := by
  rw [pageList_eq_runInts]
  exact chain'_lt_runInts 1 n.toNat

/-- C7 counterexample: at current 1, max 11, pad 0 with the default jump
values, the run succeeds but its numeric tokens are not strictly increasing. -/
theorem c7_counterexample :
    (generatePagination optionsC7).isOk = true ∧
    ¬ List.Chain' (· < ·) (numsOf (pagesOf optionsC7)) := by
  have h : numsOf (pagesOf optionsC7) = [1, 4, 5, 10, 6, 11] := by decide
  refine ⟨by decide, ?_⟩
  rw [h]
  simp only [List.chain'_cons, List.chain'_singleton, and_true]
  intro hcontra
  omega

/-- C7 amended: in simple mode (max below 7 plus four times pad) the numeric
tokens of the returned pages are strictly increasing; in complex mode the
right-side anchors can break monotonicity and even repeat values. -/
theorem c7_amended_simple_mode_increasing {o : PaginationOptions}
    {r : PaginationResult} (h : generatePagination o = Except.ok r)
    (hsimple : o.max < 7 + (o.pad.getD DEFAULT_PAD) * 4) :
    List.Chain' (· < ·) (numsOf r.pages) := by
  obtain ⟨hpages, -⟩ := c3_simple_mode h hsimple
  rw [hpages, numsOf_map_num]
  exact chain'_lt_pageList o.max

/-- Witness for the amended monotonicity claim at current 3, max 5. -/
theorem c7_amended_witness :
    ∃ r, generatePagination { current := 3, max := 5 } = Except.ok r ∧
      ((5 : Int) < 7 + ((none : Option Int).getD DEFAULT_PAD) * 4) ∧
      List.Chain' (· < ·) (numsOf r.pages) := by
  refine ⟨_, rfl, by decide,
    c7_amended_simple_mode_increasing (o := { current := 3, max := 5 }) rfl (by decide)⟩

/-!  Structural lemmas about runInts.  -/

theorem runInts_concat (a : Int) : ∀ k : Nat, runInts a (k + 1) = runInts a k ++ [a + k] := by
  intro k
  induction k generalizing a with
  | zero => simp [runInts]
  | succ k ih =>
    show a :: runInts (a + 1) (k + 1) = (a :: runInts (a + 1) k) ++ [a + (k + 1 : Nat)]
    rw [ih (a + 1)]
    simp only [List.cons_append, List.append_assoc]
    have harg : a + 1 + (k : Int) = a + ((k : Int) + 1) := by ring
    rw [harg]
    push_cast
    ring_nf

theorem runInts_append (a : Int) : ∀ j k : Nat,
    runInts a (j + k) = runInts a j ++ runInts (a + j) k := by
  intro j
  induction j generalizing a with
  | zero => intro k; simp [runInts]
  | succ j ih =>
    intro k
    have h1 : j + 1 + k = (j + k) + 1 := by omega
    rw [h1]
    show a :: runInts (a + 1) (j + k) = (a :: runInts (a + 1) j) ++ runInts (a + (j + 1 : Nat)) k
    rw [ih (a + 1) k]
    rw [List.cons_append]
    have harg : a + 1 + (j : Int) = a + ((j : Nat) + 1 : Nat) := by push_cast; ring
    rw [harg]

theorem mem_runInts (x a : Int) : ∀ k : Nat, (x ∈ runInts a k ↔ a ≤ x ∧ x < a + k) := by
  intro k
  induction k generalizing a with
  | zero =>
    simp only [runInts, List.not_mem_nil, false_iff, not_and, not_lt]
    intro h
    omega
  | succ k ih =>
    simp only [runInts, List.mem_cons, ih (a + 1)]
    constructor
    · rintro (rfl | ⟨hx1, hx2⟩) <;> constructor <;> omega
    · rintro ⟨hx1, hx2⟩
      rcases eq_or_lt_of_le hx1 with rfl | hlt
      · exact Or.inl rfl
      · exact Or.inr ⟨by omega, by omega⟩

theorem getLast?_runInts (a : Int) : ∀ k : Nat, 0 < k →
    (runInts a k).getLast? = some (a + k - 1) := by
  intro k
  induction k generalizing a with
  | zero => omega
  | succ k ih =>
    intro _
    rw [runInts_concat]
    rw [List.getLast?_concat]
    congr 1
    omega

theorem runInts_ne_nil (a : Int) (k : Nat) (h : 0 < k) : runInts a k ≠ [] := by
  cases k with
  | zero => omega
  | succ k => simp [runInts]

/-!  Structural lemmas about the pieces of addPage.  -/

theorem mem_of_getLast? {α : Type} {l : List α} {a : α} (h : l.getLast? = some a) :
    a ∈ l := by
  obtain ⟨ys, rfl⟩ := List.getLast?_eq_some_iff.mp h
  simp

theorem getLast?_cons_of_ne_nil {α : Type} (a : α) {l : List α} (h : l ≠ []) :
    (a :: l).getLast? = l.getLast? := by
  cases l with
  | nil => exact absurd rfl h
  | cons b t => exact List.getLast?_cons_cons

theorem head?_dropLast {l : List Tok} (h : l.dropLast ≠ []) :
    l.dropLast.head? = l.head? := by
  cases l with
  | nil => simp at h
  | cons a t =>
    cases t with
    | nil => simp at h
    | cons b t2 => rfl

theorem gapScanFrom_bounds (l : List Tok) :
    ∀ i g, gapScanFrom l i = some g → 1 ≤ g ∧ g ≤ i + 1 := by
  intro i
  induction i with
  | zero =>
    intro g h
    unfold gapScanFrom at h
    split at h <;> simp_all
  | succ i ih =>
    intro g h
    unfold gapScanFrom at h
    split at h
    · simp only [Option.some.injEq] at h; omega
    · have := ih g h; omega

theorem gapScan_bounds {l : List Tok} {g : Nat} (h : gapScan l = some g) :
    1 ≤ g ∧ g ≤ l.length - 1 ∧ 2 ≤ l.length := by
  unfold gapScan at h
  split at h
  · have := gapScanFrom_bounds l _ _ h
    rename_i hlen
    omega
  · simp at h

theorem head?_insertIdx {α : Type} (x : α) (l : List α) (g : Nat) (hg : 1 ≤ g) :
    (l.insertIdx g x).head? = l.head? := by
  cases l with
  | nil =>
    cases g with
    | zero => omega
    | succ g => rfl
  | cons a t =>
    cases g with
    | zero => omega
    | succ g => rw [List.insertIdx_succ_cons]; rfl

theorem getLast?_insertIdx {α : Type} (x : α) :
    ∀ (l : List α) (g : Nat), g < l.length →
      (l.insertIdx g x).getLast? = l.getLast? := by
  intro l
  induction l with
  | nil => intro g hg; simp at hg
  | cons a t ih =>
    intro g hg
    cases g with
    | zero =>
      rw [List.insertIdx_zero]
      exact getLast?_cons_of_ne_nil x (by simp)
    | succ g =>
      rw [List.insertIdx_succ_cons]
      have hgt : g < t.length := by simpa using hg
      have ht : t ≠ [] := by
        intro hc; rw [hc] at hgt; simp at hgt
      have hins : t.insertIdx g x ≠ [] := by
        have : (t.insertIdx g x).length = t.length + 1 :=
          List.length_insertIdx g t (by omega)
        exact List.ne_nil_of_length_pos (by omega)
      rw [getLast?_cons_of_ne_nil a hins, getLast?_cons_of_ne_nil a ht]
      exact ih g hgt

theorem fixSmallGap_head? (l : List Tok) : (fixSmallGap l).head? = l.head? := by
  unfold fixSmallGap
  split
  · cases l with
    | nil => rfl
    | cons a t => rfl
  · rfl

theorem fixSmallGap_getLast? (l : List Tok) : (fixSmallGap l).getLast? = l.getLast? := by
  unfold fixSmallGap
  split
  · rename_i h
    have h3 : 2 < l.length := by
      by_contra hc
      have : l[2]? = none := List.getElem?_eq_none (by omega)
      rw [this] at h
      simp at h
    rw [List.getLast?_eq_getElem?, List.getLast?_eq_getElem?, List.length_set]
    exact List.getElem?_set_ne (by omega)
  · rfl

theorem fixSmallGap_mem {t : Tok} (ht : t ≠ Tok.gap) {l : List Tok} (h : t ∈ l) :
    t ∈ fixSmallGap l := by
  unfold fixSmallGap
  split
  · rename_i hc
    obtain ⟨i, hi, hit⟩ := List.mem_iff_getElem.mp h
    rcases eq_or_ne i 1 with rfl | hne
    · exfalso
      rw [List.getElem?_eq_getElem hi] at hc
      have hgap : l[1] = Tok.gap := by
        have := hc.1
        simp only [Option.some.injEq] at this
        exact this
      rw [hit] at hgap
      exact ht hgap
    · refine List.mem_iff_getElem.mpr ⟨i, ?_, ?_⟩
      · rw [List.length_set]; exact hi
      · rw [List.getElem_set_ne (by omega)]
        exact hit
  · exact h

/-!  The key facts about addPage.  -/

/-- addPage always leaves the page just added as the final token. -/
theorem addPage_getLast? (pag : List Tok) (page pos : Int) :
    (addPage pag page pos).getLast? = some (Tok.num page) := by
  unfold addPage
  have hb : (collapseList pag page).getLast? = some (Tok.num page) := by
    rw [show collapseList pag page =
      (pag.dropLast ++ [Tok.num (page - 1)]) ++ [Tok.num page] by simp [collapseList]]
    exact List.getLast?_concat _
  split
  · split
    · split
      · rename_i g hg
        rw [fixSmallGap_getLast?]
        rw [getLast?_insertIdx]
        · exact hb
        · obtain ⟨hg1, hg2, hg3⟩ := gapScan_bounds hg
          have : (collapseList pag page).length =
              pag.dropLast.length + 2 := by simp [collapseList]
          omega
      · rw [fixSmallGap_getLast?]; exact hb
    · rw [fixSmallGap_getLast?]; exact hb
  · split
    · rw [fixSmallGap_getLast?]; exact List.getLast?_concat _
    · rename_i hne
      rw [fixSmallGap_getLast?]
      push_neg at hne
      exact hne

theorem addPage_ne_nil (pag : List Tok) (page pos : Int) : addPage pag page pos ≠ [] := by
  intro hc
  have h := addPage_getLast? pag page pos
  rw [hc] at h
  simp at h

theorem mem_addPage_self (pag : List Tok) (page pos : Int) :
    Tok.num page ∈ addPage pag page pos :=
  mem_of_getLast? (addPage_getLast? pag page pos)

/-- addPage keeps the first token of a non-empty list. -/
theorem addPage_head? (pag : List Tok) (page pos : Int) (hne : pag ≠ []) :
    (addPage pag page pos).head? = pag.head? := by
  unfold addPage
  split
  · rename_i hcol
    have hdl : pag.dropLast ≠ [] := by
      intro hc
      have h2 := hcol.2
      unfold secondLast? at h2
      rw [hc] at h2
      simp at h2
    have hbhead : (collapseList pag page).head? = pag.head? := by
      unfold collapseList
      rw [List.head?_append]
      rw [head?_dropLast hdl]
      cases hph : pag.head? with
      | none => rw [List.head?_eq_none_iff] at hph; exact absurd hph hne
      | some a => rfl
    split
    · split
      · rename_i g hg
        rw [fixSmallGap_head?]
        rw [head?_insertIdx _ _ _ (gapScan_bounds hg).1]
        exact hbhead
      · rw [fixSmallGap_head?]; exact hbhead
    · rw [fixSmallGap_head?]; exact hbhead
  · split
    · rw [fixSmallGap_head?]
      rw [List.head?_append]
      cases hph : pag.head? with
      | none => rw [List.head?_eq_none_iff] at hph; exact absurd hph hne
      | some a => rfl
    · rw [fixSmallGap_head?]

/-- addPage never loses a numeric token. -/
theorem mem_addPage_of_mem {t : Tok} (ht : t ≠ Tok.gap) {pag : List Tok}
    (h : t ∈ pag) (page pos : Int) : t ∈ addPage pag page pos := by
  unfold addPage
  split
  · rename_i hcol
    have hmem_b : t ∈ collapseList pag page := by
      unfold collapseList
      have hsplit : pag.dropLast ++ [Tok.gap] = pag :=
        List.dropLast_append_getLast? Tok.gap (by simp [Option.mem_def, hcol.1])
      rw [← hsplit] at h
      rcases List.mem_append.mp h with h1 | h1
      · exact List.mem_append_left _ h1
      · simp only [List.mem_singleton] at h1
        exact absurd h1 ht
    split
    · split
      · rename_i g hg
        refine fixSmallGap_mem ht ?_
        refine (List.mem_insertIdx ?_).mpr (Or.inr hmem_b)
        obtain ⟨hg1, hg2, hg3⟩ := gapScan_bounds hg
        omega
      · exact fixSmallGap_mem ht hmem_b
    · exact fixSmallGap_mem ht hmem_b
  · split
    · exact fixSmallGap_mem ht (List.mem_append_left _ h)
    · exact fixSmallGap_mem ht h

/-!  Step-level facts for the complex-mode page loop.  -/

theorem leftBatch_ne_nil (ctx : Ctx) (pag : List Tok) : leftBatch ctx pag ≠ [] := by
  unfold leftBatch
  simp

theorem foldl_addPage_head? (ps : List Int) :
    ∀ (pag : List Tok), pag ≠ [] →
      ((ps.foldl (fun acc p => addPage acc p (-1)) pag).head? = pag.head? ∧
       ps.foldl (fun acc p => addPage acc p (-1)) pag ≠ []) := by
  induction ps with
  | nil => intro pag h; exact ⟨rfl, h⟩
  | cons p ps ih =>
    intro pag h
    have h1 := addPage_head? pag p (-1) h
    have h2 := addPage_ne_nil pag p (-1)
    obtain ⟨ha, hb⟩ := ih (addPage pag p (-1)) h2
    exact ⟨by rw [List.foldl_cons, ha, h1], by rw [List.foldl_cons]; exact hb⟩

theorem leftBatch_head? (ctx : Ctx) (pag : List Tok) (hne : pag ≠ []) :
    (leftBatch ctx pag).head? = pag.head? := by
  unfold leftBatch
  obtain ⟨ha, hb⟩ := foldl_addPage_head?
    (((chainRaw ctx).filter (fun v => 1 < v ∧ Tok.num v ∉ pag)).reverse) pag hne
  rw [List.head?_append, ha]
  cases hph : pag.head? with
  | none => rw [List.head?_eq_none_iff] at hph; exact absurd hph hne
  | some a => rfl

theorem mem_leftBatch_of_mem {t : Tok} (ht : t ≠ Tok.gap) {pag : List Tok}
    (h : t ∈ pag) (ctx : Ctx) : t ∈ leftBatch ctx pag := by
  unfold leftBatch
  refine List.mem_append_left _ ?_
  generalize ((chainRaw ctx).filter (fun v => 1 < v ∧ Tok.num v ∉ pag)).reverse = ps
  induction ps generalizing pag with
  | nil => exact h
  | cons p ps ih => exact ih (mem_addPage_of_mem ht h p (-1))

/-- Every loop step preserves non-emptiness and the head token. -/
theorem stepPage_head? (ctx : Ctx) (pag : List Tok) (page : Int) (hne : pag ≠ []) :
    (stepPage ctx pag page).head? = pag.head? ∧ stepPage ctx pag page ≠ [] := by
  unfold stepPage
  split
  · exact ⟨addPage_head? pag page 0 hne, addPage_ne_nil pag page 0⟩
  · split
    · exact ⟨leftBatch_head? ctx pag hne, leftBatch_ne_nil ctx pag⟩
    · split
      · exact ⟨addPage_head? pag page 0 hne, addPage_ne_nil pag page 0⟩
      · split
        · split
          · constructor
            · rw [List.head?_append]
              cases hph : pag.head? with
              | none => rw [List.head?_eq_none_iff] at hph; exact absurd hph hne
              | some a => rfl
            · simp
          · split
            · split
              · exact ⟨addPage_head? pag _ 1 hne, addPage_ne_nil pag _ 1⟩
              · exact ⟨addPage_head? pag page 1 hne, addPage_ne_nil pag page 1⟩
            · exact ⟨rfl, hne⟩
        · exact ⟨rfl, hne⟩

/-- Every loop step preserves membership of a numeric token. -/
theorem mem_stepPage_of_mem {t : Tok} (ht : t ≠ Tok.gap) {pag : List Tok}
    (h : t ∈ pag) (ctx : Ctx) (page : Int) : t ∈ stepPage ctx pag page := by
  unfold stepPage
  split
  · exact mem_addPage_of_mem ht h page 0
  · split
    · exact mem_leftBatch_of_mem ht h ctx
    · split
      · exact mem_addPage_of_mem ht h page 0
      · split
        · split
          · exact List.mem_append_left _ h
          · split
            · split
              · exact mem_addPage_of_mem ht h _ 1
              · exact mem_addPage_of_mem ht h page 1
            · exact h
        · exact h

theorem foldl_stepPage_head? (ctx : Ctx) (ps : List Int) :
    ∀ (pag : List Tok), pag ≠ [] →
      ((ps.foldl (stepPage ctx) pag).head? = pag.head? ∧
       ps.foldl (stepPage ctx) pag ≠ []) := by
  induction ps with
  | nil => intro pag h; exact ⟨rfl, h⟩
  | cons p ps ih =>
    intro pag h
    obtain ⟨h1, h2⟩ := stepPage_head? ctx pag p h
    obtain ⟨ha, hb⟩ := ih (stepPage ctx pag p) h2
    exact ⟨by rw [List.foldl_cons, ha, h1], by rw [List.foldl_cons]; exact hb⟩

theorem mem_foldl_stepPage {t : Tok} (ht : t ≠ Tok.gap) (ctx : Ctx) (ps : List Int) :
    ∀ {pag : List Tok}, t ∈ pag → t ∈ ps.foldl (stepPage ctx) pag := by
  induction ps with
  | nil => intro pag h; exact h
  | cons p ps ih => intro pag h; exact ih (mem_stepPage_of_mem ht h ctx p)

/-- The first loop step from the empty list is the single token 1. -/
theorem stepPage_one (ctx : Ctx) : stepPage ctx [] 1 = [Tok.num 1] := by
  have h1 : addPage [] 1 0 = [Tok.num 1] := by decide
  unfold stepPage
  rw [if_pos (Or.inl rfl)]
  exact h1

/-- C1.  For every valid request the pages are non-empty, begin with the page
number 1 and end with the page number max (a single shared token when max is
1). -/
theorem c1_first_last {o : PaginationOptions} {r : PaginationResult}
    (h : generatePagination o = Except.ok r) :
    r.pages ≠ [] ∧ r.pages.head? = some (Tok.num 1) ∧
      r.pages.getLast? = some (Tok.num o.max) := by
  obtain ⟨h1, h2, hp, hj1, hj2, hr⟩ := generatePagination_ok h
  subst hr
  show generatePaginationArray o.current o.max _ _ ≠ [] ∧ _ ∧ _
  unfold generatePaginationArray
  split
  · rename_i hsimple
    rw [pageList_eq_runInts]
    have hm : 0 < o.max.toNat := by omega
    obtain ⟨k, hk⟩ : ∃ k, o.max.toNat = k + 1 := ⟨o.max.toNat - 1, by omega⟩
    rw [hk]
    refine ⟨by simp [runInts], ?_, ?_⟩
    · rw [show runInts 1 (k + 1) = 1 :: runInts 2 k from rfl]
      rfl
    · rw [runInts_concat]
      simp only [List.map_append, List.map_cons, List.map_nil]
      rw [List.getLast?_concat]
      congr 2
      omega
  · rename_i hcomplex
    push_neg at hcomplex
    have hm7 : (7 : Int) ≤ o.max := by
      have : (7 : Nat) ≤ minPagesForComplex (o.pad.getD DEFAULT_PAD).toNat := by
        unfold minPagesForComplex; omega
      omega
    rw [pageList_eq_runInts]
    obtain ⟨k, hk⟩ : ∃ k, o.max.toNat = (k + 1) + 1 := ⟨o.max.toNat - 2, by omega⟩
    rw [hk, runInts_concat, List.foldl_append]
    set ctx : Ctx := ⟨o.current, o.max, (o.pad.getD DEFAULT_PAD).toNat,
      o.jumpValues.getD DEFAULT_JUMP_VALUES⟩ with hctx
    have hsplit : runInts 1 (k + 1) = 1 :: runInts 2 k := rfl
    have hS : ∀ S : List Tok,
        S = (runInts 1 (k + 1)).foldl (stepPage ctx) [] →
        S.head? = some (Tok.num 1) ∧ S ≠ [] := by
      intro S hSdef
      rw [hsplit, List.foldl_cons, stepPage_one] at hSdef
      obtain ⟨ha, hb⟩ := foldl_stepPage_head? ctx (runInts 2 k) [Tok.num 1] (by simp)
      rw [hSdef]
      exact ⟨ha, hb⟩
    obtain ⟨hhead, hne⟩ := hS _ rfl
    have hlaststep : (1 : Int) + ((k + 1 : Nat) : Int) = o.max := by push_cast; omega
    rw [List.foldl_cons, List.foldl_nil, hlaststep]
    have hbranch : stepPage ctx ((runInts 1 (k + 1)).foldl (stepPage ctx) []) o.max =
        addPage ((runInts 1 (k + 1)).foldl (stepPage ctx) []) o.max 0 := by
      unfold stepPage
      rw [if_pos (Or.inr (Or.inl rfl))]
    rw [hbranch]
    refine ⟨addPage_ne_nil _ _ _, ?_, addPage_getLast? _ _ _⟩
    rw [addPage_head? _ _ _ hne]
    exact hhead

/-- Witness for the boundary-token claim at current 2, max 9, pad 0 (complex
mode). -/
theorem c1_first_last_witness :
    ∃ r, generatePagination { current := 2, max := 9, pad := some 0 } = Except.ok r ∧
      (r.pages ≠ [] ∧ r.pages.head? = some (Tok.num 1) ∧
        r.pages.getLast? = some (Tok.num 9)) := by
  refine ⟨_, rfl, c1_first_last (o := { current := 2, max := 9, pad := some 0 }) rfl⟩

/-- C8.  For every valid request the current page appears as a numeric token in
the returned pages. -/
theorem c8_current_present {o : PaginationOptions} {r : PaginationResult}
    (h : generatePagination o = Except.ok r) :
    Tok.num o.current ∈ r.pages := by
  obtain ⟨h1, h2, hp, hj1, hj2, hr⟩ := generatePagination_ok h
  subst hr
  show Tok.num o.current ∈ generatePaginationArray o.current o.max _ _
  unfold generatePaginationArray
  split
  · rw [pageList_eq_runInts]
    refine List.mem_map_of_mem Tok.num ?_
    rw [mem_runInts]
    omega
  · rw [pageList_eq_runInts]
    set ctx : Ctx := ⟨o.current, o.max, (o.pad.getD DEFAULT_PAD).toNat,
      o.jumpValues.getD DEFAULT_JUMP_VALUES⟩ with hctx
    have hsplit : o.max.toNat = o.current.toNat + (o.max.toNat - o.current.toNat) := by
      omega
    rw [hsplit, runInts_append, List.foldl_append]
    refine mem_foldl_stepPage (by simp) ctx _ ?_
    obtain ⟨j, hj⟩ : ∃ j, o.current.toNat = j + 1 := ⟨o.current.toNat - 1, by omega⟩
    rw [hj, runInts_concat, List.foldl_append]
    have hcur : (1 : Int) + j = o.current := by omega
    rw [List.foldl_cons, List.foldl_nil, hcur]
    have hbranch : ∀ S, stepPage ctx S o.current = addPage S o.current 0 := by
      intro S
      unfold stepPage
      rw [if_pos (Or.inr (Or.inr rfl))]
    rw [hbranch]
    exact mem_addPage_self _ o.current 0

/-- Witness for the current-page-presence claim at current 5, max 9, pad 0. -/
theorem c8_current_present_witness :
    ∃ r, generatePagination { current := 5, max := 9, pad := some 0 } = Except.ok r ∧
      Tok.num 5 ∈ r.pages := by
  refine ⟨_, rfl, c8_current_present (o := { current := 5, max := 9, pad := some 0 }) rfl⟩

/-!  Gap-freeness and adjacency lemmas for the no-adjacent-duplicates claim.  -/

theorem mem_of_getElem?_tok {l : List Tok} {i : Nat} {a : Tok} (h : l[i]? = some a) :
    a ∈ l := by
  have hi : i < l.length := by
    by_contra hc
    rw [List.getElem?_eq_none (by omega)] at h
    simp at h
  rw [List.getElem?_eq_getElem hi] at h
  simp only [Option.some.injEq] at h
  rw [← h]
  exact List.getElem_mem hi

theorem fixSmallGap_of_nogap {l : List Tok} (h : Tok.gap ∉ l) : fixSmallGap l = l := by
  unfold fixSmallGap
  split
  · rename_i hc
    exact absurd (mem_of_getElem?_tok hc.1) h
  · rfl

theorem secondLast?_concat (l : List Tok) (x : Tok) :
    secondLast? (l ++ [x]) = l.getLast? := by
  unfold secondLast?
  rw [List.dropLast_concat]

theorem addPage_nogap {pag : List Tok} (hg : Tok.gap ∉ pag) (page pos : Int) :
    Tok.gap ∉ addPage pag page pos := by
  unfold addPage
  split
  · rename_i hc
    exact absurd (mem_of_getLast? hc.1) hg
  · split
    · rw [fixSmallGap_of_nogap (by
        intro hm
        rcases List.mem_append.mp hm with h1 | h1
        · exact hg h1
        · simp at h1)]
      intro hm
      rcases List.mem_append.mp hm with h1 | h1
      · exact hg h1
      · simp at h1
    · rw [fixSmallGap_of_nogap hg]
      exact hg

theorem addPage_chain'_of_nogap {pag : List Tok} (hg : Tok.gap ∉ pag)
    (hch : List.Chain' (· ≠ ·) pag) (page pos : Int) :
    List.Chain' (· ≠ ·) (addPage pag page pos) := by
  unfold addPage
  split
  · rename_i hc
    exact absurd (mem_of_getLast? hc.1) hg
  · split
    · rename_i hlast
      rw [fixSmallGap_of_nogap (by
        intro hm
        rcases List.mem_append.mp hm with h1 | h1
        · exact hg h1
        · simp at h1)]
      rw [List.chain'_append]
      refine ⟨hch, List.chain'_singleton _, ?_⟩
      intro x hx y hy
      simp only [List.head?_cons, Option.mem_def, Option.some.injEq] at hy
      subst hy
      intro hcontra
      rw [Option.mem_def] at hx
      rw [hcontra] at hx
      exact hlast hx
    · rw [fixSmallGap_of_nogap hg]
      exact hch

theorem chain'_ne_insertIdx_gap :
    ∀ (l : List Tok) (g : Nat), g ≤ l.length → Tok.gap ∉ l →
      List.Chain' (· ≠ ·) l → List.Chain' (· ≠ ·) (l.insertIdx g Tok.gap) := by
  intro l
  induction l with
  | nil =>
    intro g hg _ _
    have : g = 0 := by simpa using hg
    subst this
    rw [List.insertIdx_zero]
    exact List.chain'_singleton _
  | cons a t ih =>
    intro g hg hnog hch
    have hag : a ≠ Tok.gap := fun hc => hnog (hc ▸ List.mem_cons_self a t)
    cases g with
    | zero =>
      rw [List.insertIdx_zero]
      rw [List.chain'_cons']
      refine ⟨?_, hch⟩
      intro y hy
      simp only [List.head?_cons, Option.mem_def, Option.some.injEq] at hy
      subst hy
      exact fun hc => hag hc.symm
    | succ g =>
      rw [List.insertIdx_succ_cons]
      rw [List.chain'_cons'] at hch ⊢
      obtain ⟨hja, hct⟩ := hch
      refine ⟨?_, ih g (by simpa using hg)
        (fun hm => hnog (List.mem_cons_of_mem a hm)) hct⟩
      intro y hy
      cases t with
      | nil =>
        have hg0 : g = 0 := by simpa using hg
        subst hg0
        rw [List.insertIdx_zero] at hy
        simp only [List.head?_cons, Option.mem_def, Option.some.injEq] at hy
        subst hy
        exact hag
      | cons b t2 =>
        cases g with
        | zero =>
          rw [List.insertIdx_zero] at hy
          simp only [List.head?_cons, Option.mem_def, Option.some.injEq] at hy
          subst hy
          exact hag
        | succ g2 =>
          rw [List.insertIdx_succ_cons] at hy
          simp only [List.head?_cons, Option.mem_def, Option.some.injEq] at hy
          subst hy
          exact hja b (by simp)

theorem fixSmallGap_chain' {l : List Tok} (hch : List.Chain' (· ≠ ·) l)
    (hh : l.head? ≠ some (Tok.num 2)) :
    List.Chain' (· ≠ ·) (fixSmallGap l) := by
  unfold fixSmallGap
  split
  · rename_i hc
    obtain ⟨h1, h2⟩ := hc
    match l, h1, h2 with
    | a :: b :: c :: rest, h1, h2 =>
      simp only [List.getElem?_cons_succ, List.getElem?_cons_zero,
        Option.some.injEq] at h1 h2
      subst h1
      subst h2
      show List.Chain' (· ≠ ·) (a :: Tok.num 2 :: Tok.num 3 :: rest)
      simp only [List.chain'_cons] at hch ⊢
      refine ⟨?_, by decide, hch.2.2⟩
      intro hcontra
      rw [List.head?_cons] at hh
      exact hh (by rw [hcontra])
  · exact hch

/-- The collapse branch's list is free of adjacent duplicates: the tail gap was
replaced by page - 1 and page - 2 sits just before it. -/
theorem collapseList_chain' {pag : List Tok} (page : Int)
    (hch : List.Chain' (· ≠ ·) pag)
    (hsecond : secondLast? pag = some (Tok.num (page - 2))) :
    List.Chain' (· ≠ ·) (collapseList pag page) := by
  unfold collapseList
  rw [List.chain'_append]
  have hdl := List.Chain'.prefix hch (List.dropLast_prefix pag)
  refine ⟨hdl, ?_, ?_⟩
  · rw [List.chain'_cons]
    refine ⟨?_, List.chain'_singleton _⟩
    intro hc
    rw [Tok.num.injEq] at hc
    omega
  · intro x hx y hy
    unfold secondLast? at hsecond
    rw [Option.mem_def] at hx hy
    rw [hx] at hsecond
    simp only [Option.some.injEq] at hsecond
    subst hsecond
    simp only [List.head?_cons, Option.some.injEq] at hy
    subst hy
    intro hc
    rw [Tok.num.injEq] at hc
    omega

theorem collapseList_head? {pag : List Tok} (page : Int)
    (hdl : pag.dropLast ≠ []) : (collapseList pag page).head? = pag.head? := by
  unfold collapseList
  rw [List.head?_append, head?_dropLast hdl]
  cases hph : pag.head? with
  | none =>
    rw [List.head?_eq_none_iff] at hph
    rw [hph] at hdl
    simp at hdl
  | some a => rfl

theorem collapseList_nogap {pag : List Tok} (page : Int)
    (hdl : Tok.gap ∉ pag.dropLast) : Tok.gap ∉ collapseList pag page := by
  unfold collapseList
  intro hm
  rcases List.mem_append.mp hm with h1 | h1
  · exact hdl h1
  · simp at h1

/-- The master adjacency lemma for addPage: adjacent duplicates never appear,
provided a collapse with re-insertion only happens when the consumed gap was
the only one. -/
theorem addPage_chain' {pag : List Tok} (hch : List.Chain' (· ≠ ·) pag)
    (hh : pag.head? ≠ some (Tok.num 2)) (page pos : Int)
    (hsafe : pag.getLast? = some Tok.gap →
      secondLast? pag = some (Tok.num (page - 2)) → pos < 1 →
      Tok.gap ∉ pag.dropLast) :
    List.Chain' (· ≠ ·) (addPage pag page pos) := by
  unfold addPage
  split
  · rename_i hcol
    have hdl : pag.dropLast ≠ [] := by
      intro hc
      have h2 := hcol.2
      unfold secondLast? at h2
      rw [hc] at h2
      simp at h2
    have hbch : List.Chain' (· ≠ ·) (collapseList pag page) :=
      collapseList_chain' page hch hcol.2
    have hbh : (collapseList pag page).head? ≠ some (Tok.num 2) := by
      rw [collapseList_head? page hdl]
      exact hh
    split
    · rename_i hpos
      split
      · rename_i g hg
        have hnog : Tok.gap ∉ collapseList pag page :=
          collapseList_nogap page (hsafe hcol.1 hcol.2 hpos)
        refine fixSmallGap_chain' ?_ ?_
        · refine chain'_ne_insertIdx_gap _ g ?_ hnog hbch
          obtain ⟨hg1, hg2, hg3⟩ := gapScan_bounds hg
          omega
        · rw [head?_insertIdx _ _ _ (gapScan_bounds hg).1]
          exact hbh
      · exact fixSmallGap_chain' hbch hbh
    · exact fixSmallGap_chain' hbch hbh
  · split
    · rename_i hlast
      rcases eq_or_ne pag [] with rfl | hne
      · rw [List.nil_append]
        rw [fixSmallGap_of_nogap (by simp)]
        exact List.chain'_singleton _
      · refine fixSmallGap_chain' ?_ ?_
        · rw [List.chain'_append]
          refine ⟨hch, List.chain'_singleton _, ?_⟩
          intro x hx y hy
          simp only [List.head?_cons, Option.mem_def, Option.some.injEq] at hy
          subst hy
          intro hcontra
          rw [Option.mem_def] at hx
          rw [hcontra] at hx
          exact hlast hx
        · rw [List.head?_append]
          cases hph : pag.head? with
          | none => rw [List.head?_eq_none_iff] at hph; exact absurd hph hne
          | some a =>
            rw [show (some a).or ([Tok.num page].head?) = some a from rfl]
            rw [hph] at hh
            exact hh
    · exact fixSmallGap_chain' hch hh

/-- The left batch keeps the list free of adjacent duplicates and its gap is
the only one, at the end. -/
theorem leftBatch_facts (ctx : Ctx) {pag : List Tok} (hg : Tok.gap ∉ pag)
    (hch : List.Chain' (· ≠ ·) pag) :
    List.Chain' (· ≠ ·) (leftBatch ctx pag) ∧
    Tok.gap ∉ (leftBatch ctx pag).dropLast := by
  unfold leftBatch
  have main : ∀ (ps : List Int) (acc : List Tok), Tok.gap ∉ acc →
      List.Chain' (· ≠ ·) acc →
      Tok.gap ∉ (ps.foldl (fun a p => addPage a p (-1)) acc) ∧
      List.Chain' (· ≠ ·) (ps.foldl (fun a p => addPage a p (-1)) acc) := by
    intro ps
    induction ps with
    | nil => intro acc hg2 hch2; exact ⟨hg2, hch2⟩
    | cons p ps ih =>
      intro acc hg2 hch2
      rw [List.foldl_cons]
      exact ih _ (addPage_nogap hg2 p (-1)) (addPage_chain'_of_nogap hg2 hch2 p (-1))
  obtain ⟨hg2, hch2⟩ := main _ pag hg hch
  refine ⟨?_, ?_⟩
  · rw [List.chain'_append]
    refine ⟨hch2, List.chain'_singleton _, ?_⟩
    intro x hx y hy
    simp only [List.head?_cons, Option.mem_def, Option.some.injEq] at hy
    subst hy
    intro hcontra
    rw [Option.mem_def] at hx
    subst hcontra
    exact hg2 (mem_of_getLast? hx)
  · rw [List.dropLast_concat]
    exact hg2

/-- One loop step preserves the master invariant. -/
theorem stepPage_preserves_LoopInv (ctx : Ctx) (hcur : 1 ≤ ctx.current)
    {page : Int} {pag : List Tok} (hinv : LoopInv ctx page pag) :
    LoopInv ctx (page + 1) (stepPage ctx pag page) := by
  obtain ⟨hne, hhead, hchain, hgapSafe, hlastMid⟩ := hinv
  have hh2 : pag.head? ≠ some (Tok.num 2) := by rw [hhead]; decide
  unfold stepPage
  split
  · rename_i hb1
    refine ⟨addPage_ne_nil _ _ _, by rw [addPage_head? _ _ _ hne]; exact hhead,
      ?_, ?_, ?_⟩
    · refine addPage_chain' hchain hh2 page 0 ?_
      intro hl hs _
      rcases hgapSafe hl with hok | ⟨hsec, hnem⟩
      · exact hok
      · exfalso
        rw [hsec] at hs
        simp only [Option.some.injEq, Tok.num.injEq] at hs
        rcases hb1 with h1 | h1 | h1 <;> omega
    · intro hl
      rw [addPage_getLast?] at hl
      simp at hl
    · intro _ _
      rw [addPage_getLast?]
      congr 2
      omega
  · rename_i hb1
    split
    · rename_i hbatch
      obtain ⟨hplt, hnogap, hlen, hpad⟩ := hbatch
      obtain ⟨hbch, hbdrop⟩ := leftBatch_facts ctx hnogap hchain
      refine ⟨leftBatch_ne_nil ctx pag,
        by rw [leftBatch_head? ctx pag hne]; exact hhead, hbch, ?_, ?_⟩
      · intro _
        exact Or.inl hbdrop
      · intro hlo _
        exfalso
        omega
    · rename_i hbatch
      split
      · rename_i hmid
        refine ⟨addPage_ne_nil _ _ _,
          by rw [addPage_head? _ _ _ hne]; exact hhead, ?_, ?_, ?_⟩
        · refine addPage_chain' hchain hh2 page 0 ?_
          intro hl hs _
          rcases hgapSafe hl with hok | ⟨hsec, hnem⟩
          · exact hok
          · exfalso
            rw [hsec] at hs
            simp only [Option.some.injEq, Tok.num.injEq] at hs
            have := hmid.2
            omega
        · intro hl
          rw [addPage_getLast?] at hl
          simp at hl
        · intro _ _
          rw [addPage_getLast?]
          congr 2
          omega
      · rename_i hmid
        split
        · rename_i hgt
          split
          · rename_i hgap2
            obtain ⟨heq, hne3⟩ := hgap2
            have hlast : pag.getLast? = some (Tok.num (page - 1)) :=
              hlastMid hgt (by omega)
            refine ⟨by simp, ?_, ?_, ?_, ?_⟩
            · rw [List.head?_append]
              cases hph : pag.head? with
              | none => rw [List.head?_eq_none_iff] at hph; exact absurd hph hne
              | some a =>
                rw [show (some a).or ([Tok.gap].head?) = some a from rfl]
                rw [hph] at hhead
                exact hhead
            · rw [List.chain'_append]
              refine ⟨hchain, List.chain'_singleton _, ?_⟩
              intro x hx y hy
              simp only [List.head?_cons, Option.mem_def, Option.some.injEq] at hy
              subst hy
              rw [Option.mem_def, hlast] at hx
              simp only [Option.some.injEq] at hx
              subst hx
              simp
            · intro _
              refine Or.inr ⟨?_, by omega⟩
              rw [secondLast?_concat, hlast]
              congr 2
              omega
            · intro _ hhi
              exfalso
              omega
          · rename_i hgap2
            split
            · rename_i hbudget
              have hvac : ¬ (page + 1 ≤ ctx.current + ctx.pad + 1) := by
                push_neg at hmid
                have := hmid (by omega)
                omega
              split
              · refine ⟨addPage_ne_nil _ _ _,
                  by rw [addPage_head? _ _ _ hne]; exact hhead, ?_, ?_, ?_⟩
                · refine addPage_chain' hchain hh2 _ 1 ?_
                  intro _ _ hpos
                  exact absurd hpos (by omega)
                · intro hl
                  rw [addPage_getLast?] at hl
                  simp at hl
                · intro _ hhi
                  exact absurd hhi hvac
              · refine ⟨addPage_ne_nil _ _ _,
                  by rw [addPage_head? _ _ _ hne]; exact hhead, ?_, ?_, ?_⟩
                · refine addPage_chain' hchain hh2 _ 1 ?_
                  intro _ _ hpos
                  exact absurd hpos (by omega)
                · intro hl
                  rw [addPage_getLast?] at hl
                  simp at hl
                · intro _ hhi
                  exact absurd hhi hvac
            · refine ⟨hne, hhead, hchain, hgapSafe, ?_⟩
              intro _ hhi
              exfalso
              push_neg at hmid
              have := hmid (by omega)
              omega
        · rename_i hngt
          refine ⟨hne, hhead, hchain, hgapSafe, ?_⟩
          intro hlo _
          exfalso
          push_neg at hb1
          omega

/-- The master invariant propagates along any run of consecutive pages. -/
theorem foldl_stepPage_LoopInv (ctx : Ctx) (hcur : 1 ≤ ctx.current) :
    ∀ (k : Nat) (p : Int) (pag : List Tok), LoopInv ctx p pag →
      LoopInv ctx (p + k) ((runInts p k).foldl (stepPage ctx) pag) := by
  intro k
  induction k with
  | zero =>
    intro p pag h
    simpa [runInts] using h
  | succ k ih =>
    intro p pag h
    rw [show runInts p (k + 1) = p :: runInts (p + 1) k from rfl, List.foldl_cons]
    have h3 := ih (p + 1) _ (stepPage_preserves_LoopInv ctx hcur h)
    have harith : p + ((k : Nat) + 1 : Nat) = (p + 1) + (k : Int) := by push_cast; ring
    rw [harith]
    exact h3

/-- C5.  For every valid request no two adjacent tokens of the returned pages
are equal: in particular no two adjacent equal page numbers and no two
adjacent gap symbols occur. -/
theorem c5_no_adjacent_duplicates {o : PaginationOptions} {r : PaginationResult}
    (h : generatePagination o = Except.ok r) :
    List.Chain' (· ≠ ·) r.pages := by
  obtain ⟨h1, h2, hp, hj1, hj2, hr⟩ := generatePagination_ok h
  subst hr
  show List.Chain' (· ≠ ·) (generatePaginationArray o.current o.max _ _)
  unfold generatePaginationArray
  split
  · rw [List.chain'_map]
    refine (chain'_lt_pageList o.max).imp ?_
    intro a b hab
    intro hc
    rw [Tok.num.injEq] at hc
    omega
  · rw [pageList_eq_runInts]
    set ctx : Ctx := ⟨o.current, o.max, (o.pad.getD DEFAULT_PAD).toNat,
      o.jumpValues.getD DEFAULT_JUMP_VALUES⟩ with hctx
    rename_i hcomplex
    push_neg at hcomplex
    have hm7 : (7 : Int) ≤ o.max := by
      have : (7 : Nat) ≤ minPagesForComplex (o.pad.getD DEFAULT_PAD).toNat := by
        unfold minPagesForComplex; omega
      omega
    obtain ⟨k, hk⟩ : ∃ k, o.max.toNat = k + 1 := ⟨o.max.toNat - 1, by omega⟩
    rw [hk]
    rw [show runInts 1 (k + 1) = 1 :: runInts 2 k from rfl, List.foldl_cons,
      stepPage_one]
    have hinv0 : LoopInv ctx 2 [Tok.num 1] := by
      refine ⟨by simp, rfl, List.chain'_singleton _, by intro hl; simp at hl, ?_⟩
      intro hlo _
      show some (Tok.num 1) = some (Tok.num (2 - 1))
      norm_num
    exact (foldl_stepPage_LoopInv ctx h1 k 2 [Tok.num 1] hinv0).chain

/-- Witness for the adjacency claim at current 5, max 100, default options. -/
theorem c5_no_adjacent_duplicates_witness :
    ∃ r, generatePagination { current := 5, max := 100 } = Except.ok r ∧
      List.Chain' (· ≠ ·) r.pages := by
  refine ⟨_, rfl, c5_no_adjacent_duplicates (o := { current := 5, max := 100 }) rfl⟩

/-- C10.  The request with current 50, max 100 and pad 1 succeeds and its pages
contain 49, 50 and 51 but neither 48 nor 52. -/
theorem c10_scenario :
    (generatePagination optionsC10).isOk = true ∧
    Tok.num 49 ∈ pagesOf optionsC10 ∧ Tok.num 50 ∈ pagesOf optionsC10 ∧
    Tok.num 51 ∈ pagesOf optionsC10 ∧
    Tok.num 48 ∉ pagesOf optionsC10 ∧ Tok.num 52 ∉ pagesOf optionsC10 := by
  decide

/-!  Length lemmas for the bounded-size claim.  -/

theorem fixSmallGap_length (l : List Tok) : (fixSmallGap l).length = l.length := by
  unfold fixSmallGap
  split
  · simp
  · rfl

theorem collapseList_length (pag : List Tok) (page : Int) (hne : pag ≠ []) :
    (collapseList pag page).length = pag.length + 1 := by
  have h0 : pag.length ≠ 0 := by
    intro hc
    exact hne (List.length_eq_zero.mp hc)
  unfold collapseList
  simp only [List.length_append, List.length_cons, List.length_nil, List.length_dropLast]
  omega

/-- addPage grows the list by at most two tokens. -/
theorem addPage_length_le (pag : List Tok) (page pos : Int) :
    (addPage pag page pos).length ≤ pag.length + 2 := by
  unfold addPage
  rw [fixSmallGap_length]
  split
  · rename_i hcol
    have hne : pag ≠ [] := by
      intro hc
      rw [hc] at hcol
      simp at hcol
    have hlc := collapseList_length pag page hne
    split
    · split
      · rename_i g hg
        obtain ⟨hg1, hg2, hg3⟩ := gapScan_bounds hg
        rw [List.length_insertIdx _ _ (by omega)]
        omega
      · omega
    · omega
  · split
    · simp only [List.length_append, List.length_cons, List.length_nil]
      omega
    · omega

/-- addPage grows the list by at most one token unless the gap-collapse with a
left-side position fires, which needs a trailing gap, the matching second-last
value and a position below one. -/
theorem addPage_length_le_one (pag : List Tok) (page pos : Int)
    (h : pag.getLast? ≠ some Tok.gap ∨
      secondLast? pag ≠ some (Tok.num (page - 2)) ∨ 1 ≤ pos) :
    (addPage pag page pos).length ≤ pag.length + 1 := by
  unfold addPage
  rw [fixSmallGap_length]
  split
  · rename_i hcol
    have hne : pag ≠ [] := by
      intro hc
      rw [hc] at hcol
      simp at hcol
    have hlc := collapseList_length pag page hne
    have hpos : 1 ≤ pos := by
      rcases h with h | h | h
      · exact absurd hcol.1 h
      · exact absurd hcol.2 h
      · exact h
    rw [if_neg (by omega)]
    omega
  · split
    · simp only [List.length_append, List.length_cons, List.length_nil]
      omega
    · omega

theorem lowerChainFrom_length (pad : Nat) (jumps : List Int) :
    ∀ (fuel i : Nat) (v : Int), (lowerChainFrom pad jumps i v fuel).length = fuel := by
  intro fuel
  induction fuel with
  | zero => intro i v; rfl
  | succ fuel ih =>
    intro i v
    rw [show lowerChainFrom pad jumps i v (fuel + 1) =
      findLowerValuesFor 1 v i pad jumps ::
        lowerChainFrom pad jumps (i + 1) (findLowerValuesFor 1 v i pad jumps) fuel from rfl]
    simp only [List.length_cons]
    rw [ih]

theorem chainRaw_length (ctx : Ctx) : (chainRaw ctx).length = ctx.pad + 1 := by
  unfold chainRaw
  exact lowerChainFrom_length ctx.pad ctx.jumps (ctx.pad + 1) 0 _

/-- Folding addPage over a gap-free accumulator keeps it gap-free and adds at
most one token per value. -/
theorem foldl_addPage_nogap_length (ps : List Int) :
    ∀ pag : List Tok, Tok.gap ∉ pag →
      Tok.gap ∉ ps.foldl (fun acc p => addPage acc p (-1)) pag ∧
      (ps.foldl (fun acc p => addPage acc p (-1)) pag).length ≤ pag.length + ps.length := by
  induction ps with
  | nil =>
    intro pag hg
    exact ⟨hg, by simp⟩
  | cons p ps ih =>
    intro pag hg
    rw [List.foldl_cons]
    have hg2 := addPage_nogap hg p (-1)
    have hlast : pag.getLast? ≠ some Tok.gap := by
      intro hc
      exact hg (mem_of_getLast? hc)
    have hlen := addPage_length_le_one pag p (-1) (Or.inl hlast)
    obtain ⟨ha, hb⟩ := ih _ hg2
    refine ⟨ha, ?_⟩
    simp only [List.length_cons]
    omega

/-- The left batch adds at most pad plus two tokens to a gap-free list. -/
theorem leftBatch_length (ctx : Ctx) (pag : List Tok) (hg : Tok.gap ∉ pag) :
    ((leftBatch ctx pag).length : Int) ≤ (pag.length : Int) + (ctx.pad : Int) + 2 := by
  have hrfl : leftBatch ctx pag =
      (((chainRaw ctx).filter (fun v => 1 < v ∧ Tok.num v ∉ pag)).reverse.foldl
        (fun acc p => addPage acc p (-1)) pag) ++ [Tok.gap] := rfl
  rw [hrfl]
  obtain ⟨-, hb⟩ := foldl_addPage_nogap_length
    (((chainRaw ctx).filter (fun v => 1 < v ∧ Tok.num v ∉ pag)).reverse) pag hg
  have hf : (((chainRaw ctx).filter (fun v => 1 < v ∧ Tok.num v ∉ pag)).reverse).length
      ≤ ctx.pad + 1 := by
    rw [List.length_reverse]
    calc ((chainRaw ctx).filter (fun v => 1 < v ∧ Tok.num v ∉ pag)).length
        ≤ (chainRaw ctx).length := List.length_filter_le _ _
    _ = ctx.pad + 1 := chainRaw_length ctx
  simp only [List.length_append, List.length_cons, List.length_nil]
  omega

theorem mem_foldl_addPage_of_mem (ps : List Int) :
    ∀ {pag : List Tok} {v : Int}, Tok.num v ∈ pag →
      Tok.num v ∈ ps.foldl (fun acc p => addPage acc p (-1)) pag := by
  induction ps with
  | nil => intro pag v h; exact h
  | cons p ps ih =>
    intro pag v h
    rw [List.foldl_cons]
    exact ih (mem_addPage_of_mem (by simp) h p (-1))

theorem mem_foldl_addPage_self (ps : List Int) :
    ∀ (pag : List Tok) (v : Int), v ∈ ps →
      Tok.num v ∈ ps.foldl (fun acc p => addPage acc p (-1)) pag := by
  induction ps with
  | nil => intro pag v h; simp at h
  | cons p ps ih =>
    intro pag v h
    rw [List.foldl_cons]
    rcases List.mem_cons.mp h with rfl | h1
    · exact mem_foldl_addPage_of_mem ps (mem_addPage_self pag _ (-1))
    · exact ih _ v h1

/-- After the left batch every chain value above one is present. -/
theorem leftBatch_chainMem (ctx : Ctx) (pag : List Tok) :
    ∀ v ∈ chainRaw ctx, 1 < v → Tok.num v ∈ leftBatch ctx pag := by
  intro v hv h1
  by_cases hm : Tok.num v ∈ pag
  · exact mem_leftBatch_of_mem (by simp) hm ctx
  · have hrfl : leftBatch ctx pag =
        (((chainRaw ctx).filter (fun v => 1 < v ∧ Tok.num v ∉ pag)).reverse.foldl
          (fun acc p => addPage acc p (-1)) pag) ++ [Tok.gap] := rfl
    rw [hrfl]
    refine List.mem_append_left _ ?_
    refine mem_foldl_addPage_self _ pag v ?_
    rw [List.mem_reverse, List.mem_filter]
    exact ⟨hv, by simp only [decide_eq_true_eq]; exact ⟨h1, hm⟩⟩

/-- A repeated left batch only pushes the gap: every usable chain value is
already present, so the filtered list is empty. -/
theorem leftBatch_eq_of_chainMem (ctx : Ctx) (pag : List Tok)
    (hM : ∀ v ∈ chainRaw ctx, 1 < v → Tok.num v ∈ pag) :
    leftBatch ctx pag = pag ++ [Tok.gap] := by
  have hfil : (chainRaw ctx).filter (fun v => 1 < v ∧ Tok.num v ∉ pag) = [] := by
    rw [List.filter_eq_nil_iff]
    intro a ha
    simp only [decide_eq_true_eq, not_and, not_not]
    intro h1
    exact hM a ha h1
  have hrfl : leftBatch ctx pag =
      (((chainRaw ctx).filter (fun v => 1 < v ∧ Tok.num v ∉ pag)).reverse.foldl
        (fun acc p => addPage acc p (-1)) pag) ++ [Tok.gap] := rfl
  rw [hrfl, hfil]
  rfl

/-- One loop step preserves the length invariant within the scanned range. -/
theorem stepPage_preserves_LenInv (ctx : Ctx) (hcur : 1 ≤ ctx.current)
    (hcm : ctx.current ≤ ctx.max)
    (hcomplex : (minPagesForComplex ctx.pad : Int) ≤ ctx.max)
    {page : Int} {pag : List Tok} (hp2 : 2 ≤ page) (hpmax : page ≤ ctx.max)
    (hbase : LoopInv ctx page pag) (hinv : LenInv ctx page pag) :
    LenInv ctx (page + 1) (stepPage ctx pag page) := by
  obtain ⟨hne, hhead, hchain, hgapSafe, hlastMid⟩ := hbase
  obtain ⟨hstart, hM, htrail, hlenA, hlenB, hlenC, hlenD⟩ := hinv
  have hmpc : (minPagesForComplex ctx.pad : Int) = 7 + 4 * (ctx.pad : Int) := by
    unfold minPagesForComplex
    push_cast
    ring
  unfold stepPage
  split
  · rename_i hb1
    refine ⟨?_, ?_, ?_, ?_, ?_, ?_, ?_⟩
    · intro hc
      exact absurd hc (by omega)
    · intro h3 hcgt hpad0 v hv h1
      by_cases hpg : 3 ≤ page
      · exact mem_addPage_of_mem (by simp) (hM hpg hcgt hpad0 v hv h1) page 0
      · exfalso
        rcases hb1 with hx | hx | hx <;> omega
    · intro hl
      rw [addPage_getLast?] at hl
      simp at hl
    · intro hA
      by_cases hpg : 3 ≤ page
      · exfalso
        rcases hb1 with hx | hx | hx <;> omega
      · have hpag := hstart (by omega)
        rw [hpag]
        have h2 := addPage_length_le [Tok.num 1] page 0
        simp only [List.length_cons, List.length_nil] at h2
        omega
    · intro hBl hBh
      by_cases hl : pag.getLast? = some Tok.gap
      · rcases htrail hl with hsmall | hmark
        · have h2 := addPage_length_le pag page 0
          omega
        · have hne2 : secondLast? pag ≠ some (Tok.num (page - 2)) := by
            rw [hmark.1]
            intro hc
            simp only [Option.some.injEq, Tok.num.injEq] at hc
            omega
          have h3 := addPage_length_le_one pag page 0 (Or.inr (Or.inl hne2))
          by_cases hpm : page ≤ max 3 (ctx.current - ctx.pad)
          · have := hlenA hpm
            omega
          · have := hlenB (by omega) (by omega)
            omega
      · have h3 := addPage_length_le_one pag page 0 (Or.inl hl)
        by_cases hpm : page ≤ max 3 (ctx.current - ctx.pad)
        · have := hlenA hpm
          omega
        · have := hlenB (by omega) (by omega)
          omega
    · intro hCl hCh
      exfalso
      rcases hb1 with hx | hx | hx <;> omega
    · intro hD
      have hpm : page = ctx.max := by omega
      have hpre : (pag.length : Int) ≤ (minPagesForComplex ctx.pad : Int) - 1 := by
        by_cases hq1 : page ≤ max 3 (ctx.current - ctx.pad)
        · have := hlenA hq1
          omega
        · by_cases hq2 : page ≤ ctx.current + ctx.pad + 1
          · have := hlenB (by omega) hq2
            omega
          · have := hlenC (by omega) hpmax
            omega
      by_cases hl : pag.getLast? = some Tok.gap
      · rcases htrail hl with hsmall | hmark
        · have h2 := addPage_length_le pag page 0
          omega
        · have hne2 : secondLast? pag ≠ some (Tok.num (page - 2)) := by
            rw [hmark.1]
            intro hc
            simp only [Option.some.injEq, Tok.num.injEq] at hc
            exact hmark.2 (by omega)
          have h3 := addPage_length_le_one pag page 0 (Or.inr (Or.inl hne2))
          omega
      · have h3 := addPage_length_le_one pag page 0 (Or.inl hl)
        omega
  · rename_i hb1
    split
    · rename_i hbatch
      obtain ⟨hplt, hnogap, hlen, hpad⟩ := hbatch
      have hblen : ((leftBatch ctx pag).length : Int) ≤ (ctx.pad : Int) + 3 := by
        by_cases hpg : 3 ≤ page
        · rw [leftBatch_eq_of_chainMem ctx pag (hM hpg (by omega) hpad)]
          simp only [List.length_append, List.length_cons, List.length_nil]
          omega
        · have hpag := hstart (by omega)
          rw [hpag]
          have hb := leftBatch_length ctx [Tok.num 1] (by decide)
          simp only [List.length_cons, List.length_nil] at hb
          omega
      refine ⟨?_, ?_, ?_, ?_, ?_, ?_, ?_⟩
      · intro hc
        exact absurd hc (by omega)
      · intro h3 hcgt hpad0 v hv h1
        exact leftBatch_chainMem ctx pag v hv h1
      · intro hgl
        exact Or.inl hblen
      · intro hA
        exact hblen
      · intro hBl hBh
        omega
      · intro hCl hCh
        exfalso
        omega
      · intro hD
        exfalso
        omega
    · rename_i hbatch
      split
      · rename_i hmid
        refine ⟨?_, ?_, ?_, ?_, ?_, ?_, ?_⟩
        · intro hc
          exact absurd hc (by omega)
        · intro h3 hcgt hpad0 v hv h1
          by_cases hpg : 3 ≤ page
          · exact mem_addPage_of_mem (by simp) (hM hpg hcgt hpad0 v hv h1) page 0
          · exfalso
            have hpag := hstart (by omega)
            exact hbatch ⟨by omega, by rw [hpag]; decide,
              by rw [hpag]; simp only [List.length_cons, List.length_nil]; omega, hpad0⟩
        · intro hl
          rw [addPage_getLast?] at hl
          simp at hl
        · intro hA
          have hpag := hstart (by omega)
          rw [hpag]
          have h2 := addPage_length_le [Tok.num 1] page 0
          simp only [List.length_cons, List.length_nil] at h2
          omega
        · intro hBl hBh
          by_cases hl : pag.getLast? = some Tok.gap
          · rcases htrail hl with hsmall | hmark
            · have h2 := addPage_length_le pag page 0
              omega
            · have hne2 : secondLast? pag ≠ some (Tok.num (page - 2)) := by
                rw [hmark.1]
                intro hc
                simp only [Option.some.injEq, Tok.num.injEq] at hc
                omega
              have h3 := addPage_length_le_one pag page 0 (Or.inr (Or.inl hne2))
              by_cases hpm : page ≤ max 3 (ctx.current - ctx.pad)
              · have := hlenA hpm
                omega
              · have := hlenB (by omega) (by omega)
                omega
          · have h3 := addPage_length_le_one pag page 0 (Or.inl hl)
            by_cases hpm : page ≤ max 3 (ctx.current - ctx.pad)
            · have := hlenA hpm
              omega
            · have := hlenB (by omega) (by omega)
              omega
        · intro hCl hCh
          exfalso
          omega
        · intro hD
          exfalso
          exact hb1 (Or.inr (Or.inl (by omega)))
      · rename_i hmid
        split
        · rename_i hgt
          split
          · rename_i hgap2
            obtain ⟨heq, hne3⟩ := hgap2
            have hlast : pag.getLast? = some (Tok.num (page - 1)) :=
              hlastMid hgt (by omega)
            refine ⟨?_, ?_, ?_, ?_, ?_, ?_, ?_⟩
            · intro hc
              exact absurd hc (by omega)
            · intro h3 hcgt hpad0 v hv h1
              by_cases hpg : 3 ≤ page
              · exact List.mem_append_left _ (hM hpg hcgt hpad0 v hv h1)
              · exfalso
                omega
            · intro hgl
              refine Or.inr ⟨?_, by omega⟩
              rw [secondLast?_concat, hlast]
              congr 2
              omega
            · intro hA
              have hpag := hstart (by omega)
              rw [hpag]
              simp only [List.length_append, List.length_cons, List.length_nil]
              omega
            · intro hBl hBh
              exfalso
              omega
            · intro hCl hCh
              simp only [List.length_append, List.length_cons, List.length_nil]
              by_cases hq1 : page ≤ max 3 (ctx.current - ctx.pad)
              · have := hlenA hq1
                push_cast
                omega
              · have := hlenB (by omega) (by omega)
                push_cast
                omega
            · intro hD
              exfalso
              exact hb1 (Or.inr (Or.inl (by omega)))
          · rename_i hgap2
            split
            · rename_i hbudget
              have key : ∀ v : Int, LenInv ctx (page + 1) (addPage pag v 1) := by
                intro v
                refine ⟨?_, ?_, ?_, ?_, ?_, ?_, ?_⟩
                · intro hc
                  exact absurd hc (by omega)
                · intro h3 hcgt hpad0 w hw h1
                  by_cases hpg : 3 ≤ page
                  · exact mem_addPage_of_mem (by simp) (hM hpg hcgt hpad0 w hw h1) v 1
                  · exfalso
                    omega
                · intro hl
                  rw [addPage_getLast?] at hl
                  simp at hl
                · intro hA
                  exfalso
                  have hc1 : ctx.current = 1 := by omega
                  have hpp : page = 2 := by omega
                  have hpad0 : ctx.pad = 0 := by
                    by_contra hcp
                    exact hmid ⟨by omega, by omega⟩
                  have hmax2 : page = ctx.max - 1 := by
                    by_contra hcm2
                    exact hgap2 ⟨by omega, hcm2⟩
                  omega
                · intro hBl hBh
                  exfalso
                  exact hmid ⟨by omega, by omega⟩
                · intro hCl hCh
                  have h3 := addPage_length_le_one pag v 1 (Or.inr (Or.inr (by omega)))
                  omega
                · intro hD
                  exfalso
                  exact hb1 (Or.inr (Or.inl (by omega)))
              split
              · exact key _
              · exact key _
            · rename_i hbudget
              refine ⟨?_, ?_, ?_, ?_, ?_, ?_, ?_⟩
              · intro hc
                exact absurd hc (by omega)
              · intro h3 hcgt hpad0 v hv h1
                by_cases hpg : 3 ≤ page
                · exact hM hpg hcgt hpad0 v hv h1
                · exfalso
                  omega
              · exact htrail
              · intro hA
                exfalso
                have hpag := hstart (by omega)
                rw [hpag] at hbudget
                simp only [List.length_cons, List.length_nil] at hbudget
                omega
              · intro hBl hBh
                exfalso
                exact hmid ⟨by omega, by omega⟩
              · intro hCl hCh
                by_cases hq0 : ctx.current + ctx.pad + 1 < page
                · exact hlenC hq0 (by omega)
                · by_cases hq1 : page ≤ max 3 (ctx.current - ctx.pad)
                  · have := hlenA hq1
                    omega
                  · have := hlenB (by omega) (by omega)
                    omega
              · intro hD
                exfalso
                exact hb1 (Or.inr (Or.inl (by omega)))
        · rename_i hngt
          refine ⟨?_, ?_, ?_, ?_, ?_, ?_, ?_⟩
          · intro hc
            exact absurd hc (by omega)
          · intro h3 hcgt hpad0 v hv h1
            by_cases hpg : 3 ≤ page
            · exact hM hpg hcgt hpad0 v hv h1
            · exfalso
              have hpag := hstart (by omega)
              exact hbatch ⟨by omega, by rw [hpag]; decide,
                by rw [hpag]; simp only [List.length_cons, List.length_nil]; omega, hpad0⟩
          · exact htrail
          · intro hA
            exact hlenA (by omega)
          · intro hBl hBh
            by_cases hq1 : page ≤ max 3 (ctx.current - ctx.pad)
            · have := hlenA hq1
              omega
            · have := hlenB (by omega) (by omega)
              omega
          · intro hCl hCh
            exfalso
            omega
          · intro hD
            exfalso
            exact hb1 (Or.inr (Or.inr (by omega)))

/-- The length invariant propagates along any run of consecutive pages that
stays within the page range. -/
theorem foldl_stepPage_LenInv (ctx : Ctx) (hcur : 1 ≤ ctx.current)
    (hcm : ctx.current ≤ ctx.max)
    (hcomplex : (minPagesForComplex ctx.pad : Int) ≤ ctx.max) :
    ∀ (k : Nat) (p : Int) (pag : List Tok), 2 ≤ p → p + k ≤ ctx.max + 1 →
      LoopInv ctx p pag → LenInv ctx p pag →
      LenInv ctx (p + k) ((runInts p k).foldl (stepPage ctx) pag) := by
  intro k
  induction k with
  | zero =>
    intro p pag _ _ _ h
    simpa [runInts] using h
  | succ k ih =>
    intro p pag hp2 hpk hbase hinv
    rw [show runInts p (k + 1) = p :: runInts (p + 1) k from rfl, List.foldl_cons]
    have hpmax : p ≤ ctx.max := by omega
    have hbase2 := stepPage_preserves_LoopInv ctx hcur hbase
    have hinv2 := stepPage_preserves_LenInv ctx hcur hcm hcomplex hp2 hpmax hbase hinv
    have h3 := ih (p + 1) _ (by omega) (by omega) hbase2 hinv2
    have harith : p + ((k : Nat) + 1 : Nat) = (p + 1) + (k : Int) := by
      push_cast
      ring
    rw [harith]
    exact h3

/-- C6.  For every valid request the returned pages hold at most
minPagesForComplex tokens, seven plus four times the effective pad: the
right-side anchor budget stops additions at minPagesForComplex minus one and
the final page closes the list within the bound. -/
theorem c6_length_bounded {o : PaginationOptions} {r : PaginationResult}
    (h : generatePagination o = Except.ok r) :
    (r.pages.length : Int) ≤ 7 + (o.pad.getD DEFAULT_PAD) * 4 := by
  obtain ⟨h1, h2, hp, -, -, hr⟩ := generatePagination_ok h
  subst hr
  have hpadeq : (((o.pad.getD DEFAULT_PAD).toNat : Nat) : Int) = o.pad.getD DEFAULT_PAD :=
    Int.toNat_of_nonneg hp
  show ((generatePaginationArray o.current o.max
      (o.pad.getD DEFAULT_PAD).toNat (o.jumpValues.getD DEFAULT_JUMP_VALUES)).length : Int) ≤ _
  unfold generatePaginationArray
  split
  · rename_i hsimple
    unfold pageList
    simp only [List.length_map, List.length_range]
    have hmpc2 : ((minPagesForComplex (o.pad.getD DEFAULT_PAD).toNat : Nat) : Int) =
        7 + 4 * (((o.pad.getD DEFAULT_PAD).toNat : Nat) : Int) := by
      unfold minPagesForComplex
      push_cast
      ring
    omega
  · rename_i hcomplex
    push_neg at hcomplex
    rw [pageList_eq_runInts]
    set ctx : Ctx := ⟨o.current, o.max, (o.pad.getD DEFAULT_PAD).toNat,
      o.jumpValues.getD DEFAULT_JUMP_VALUES⟩ with hctx
    have hctxc : ctx.current = o.current := rfl
    have hctxm : ctx.max = o.max := rfl
    have hctxp : ((ctx.pad : Nat) : Int) = o.pad.getD DEFAULT_PAD := hpadeq
    have hcomplex2 : (minPagesForComplex ctx.pad : Int) ≤ ctx.max := hcomplex
    have hmpc2 : (minPagesForComplex ctx.pad : Int) = 7 + 4 * (ctx.pad : Int) := by
      unfold minPagesForComplex
      push_cast
      ring
    have hm7 : (7 : Int) ≤ o.max := by omega
    obtain ⟨k, hk⟩ : ∃ k, o.max.toNat = k + 1 := ⟨o.max.toNat - 1, by omega⟩
    rw [hk]
    rw [show runInts 1 (k + 1) = 1 :: runInts 2 k from rfl, List.foldl_cons,
      stepPage_one]
    have hinv0 : LoopInv ctx 2 [Tok.num 1] := by
      refine ⟨by simp, rfl, List.chain'_singleton _, by intro hl; simp at hl, ?_⟩
      intro hlo _
      show some (Tok.num 1) = some (Tok.num (2 - 1))
      norm_num
    have hlen0 : LenInv ctx 2 [Tok.num 1] := by
      refine ⟨fun _ => rfl, ?_, ?_, ?_, ?_, ?_, ?_⟩
      · intro h3
        exact absurd h3 (by omega)
      · intro hl
        exact absurd hl (by decide)
      · intro _
        simp only [List.length_cons, List.length_nil]
        omega
      · intro hBl hBh
        exfalso
        omega
      · intro hCl hCh
        exfalso
        omega
      · intro hD
        exfalso
        omega
    have hbig := foldl_stepPage_LenInv ctx h1 h2 hcomplex2 k 2 [Tok.num 1]
      (by omega) (by omega) hinv0 hlen0
    have hfin := hbig.lenD (by omega)
    omega

/-- Witness for the length claim at current 5, max 120, default options. -/
theorem c6_length_bounded_witness :
    ∃ r, generatePagination { current := 5, max := 120 } = Except.ok r ∧
      (r.pages.length : Int) ≤
        7 + (({ current := 5, max := 120 } : PaginationOptions).pad.getD DEFAULT_PAD) * 4 := by
  refine ⟨_, rfl, c6_length_bounded (o := { current := 5, max := 120 }) rfl⟩

/-!  Bounds on the lower-anchor search for small ceilings.  -/

theorem le_tmod_of_nonpos (a b : Int) (h : a ≤ 0) : a ≤ Int.tmod a b := by
  rcases a with m | m
  · rw [Int.ofNat_eq_coe] at h ⊢
    have h0 := Int.tmod_nonneg (a := (m : Int)) b (by omega)
    omega
  · rcases b with n | n
    · rw [show Int.tmod (Int.negSucc m) (Int.ofNat n) =
        -Int.ofNat (Nat.succ m % n) from rfl, Int.negSucc_eq, Int.ofNat_eq_coe]
      have := Nat.mod_le (Nat.succ m) n
      omega
    · rw [show Int.tmod (Int.negSucc m) (Int.negSucc n) =
        -Int.ofNat (Nat.succ m % Nat.succ n) from rfl, Int.negSucc_eq, Int.ofNat_eq_coe]
      have := Nat.mod_le (Nat.succ m) (Nat.succ n)
      omega

theorem sub_tmod_le_one {mx : Int} (j : Int) (h : mx ≤ 1) :
    mx - Int.tmod mx j ≤ 1 := by
  rcases le_or_lt 0 mx with h0 | h0
  · have := Int.tmod_nonneg j h0
    omega
  · have := le_tmod_of_nonpos mx j (by omega)
    omega

/-- When the ceiling is at most one, the lower-anchor search returns a value
at most one: every branch subtracts a positive jump or a truncated remainder
from the ceiling. -/
theorem findLowerValuesFor_le_one (mx : Int) (i pad : Nat) (jumps : List Int)
    (hne : jumps ≠ []) (hpos : ∀ j ∈ jumps, 0 < j) (hmx : mx ≤ 1) :
    findLowerValuesFor 1 mx i pad jumps ≤ 1 := by
  have hlen : 0 < jumps.length := List.length_pos.mpr hne
  have hji : (jumps.findIdx? (fun j => decide (j < mx))).getD (jumps.length - 1) <
      jumps.length := by
    rcases h : jumps.findIdx? (fun j => decide (j < mx)) with _ | k
    · simp only [Option.getD_none]
      omega
    · simp only [Option.getD_some]
      exact (List.findIdx?_eq_some_iff_findIdx_eq.mp h).1
  have hval : ∀ k : Nat, k < jumps.length → 0 < jumps.getD k 0 := by
    intro k hk
    rw [List.getD_eq_getElem _ _ hk]
    exact hpos _ (List.getElem_mem hk)
  unfold findLowerValuesFor
  dsimp only
  set k := (jumps.findIdx? (fun j => decide (j < mx))).getD (jumps.length - 1) with hk
  have h1 : 0 < jumps.getD k 0 := hval k hji
  have h2 : ∀ m : Nat, mx - jumps.getD (k - m) 0 ≤ 1 := by
    intro m
    have := hval (k - m) (by omega)
    omega
  have h3 : ∀ m : Nat, mx - jumps.getD k 0 - jumps.getD (k - m) 0 ≤ 1 := by
    intro m
    have := hval (k - m) (by omega)
    omega
  have ht : mx - jsmod mx (jumps.getD k 0) ≤ 1 := sub_tmod_le_one _ hmx
  have h4 : ∀ m : Nat, mx - jsmod mx (jumps.getD k 0) - jumps.getD (k - m) 0 ≤ 1 := by
    intro m
    have := hval (k - m) (by omega)
    omega
  split_ifs
  · exact h3 _
  · omega
  · exact h4 _
  · exact ht
  · exact h2 _

/-- All values of the lower-anchor chain stay at most one once the ceiling is
at most one. -/
theorem lowerChainFrom_le_one {jumps : List Int} (hne : jumps ≠ [])
    (hpos : ∀ j ∈ jumps, 0 < j) (pad : Nat) :
    ∀ (fuel i : Nat) (v : Int), v ≤ 1 →
      ∀ w ∈ lowerChainFrom pad jumps i v fuel, w ≤ 1 := by
  intro fuel
  induction fuel with
  | zero =>
    intro i v hv w hw
    simp [lowerChainFrom] at hw
  | succ fuel ih =>
    intro i v hv w hw
    rw [show lowerChainFrom pad jumps i v (fuel + 1) =
      findLowerValuesFor 1 v i pad jumps ::
        lowerChainFrom pad jumps (i + 1) (findLowerValuesFor 1 v i pad jumps) fuel
      from rfl] at hw
    have hf := findLowerValuesFor_le_one v i pad jumps hne hpos hv
    rcases List.mem_cons.mp hw with rfl | hw2
    · exact hf
    · exact ih (i + 1) _ hf w hw2

theorem chainRaw_le_one (ctx : Ctx) (hne : ctx.jumps ≠ [])
    (hpos : ∀ j ∈ ctx.jumps, 0 < j) (hstart : ctx.current - ctx.pad - 1 ≤ 1) :
    ∀ w ∈ chainRaw ctx, w ≤ 1 := by
  unfold chainRaw
  exact lowerChainFrom_le_one hne hpos ctx.pad (ctx.pad + 1) 0 _ hstart

/-!  Lemmas about runs of consecutive page numbers.  -/

theorem length_runInts (a : Int) : ∀ k : Nat, (runInts a k).length = k := by
  intro k
  induction k generalizing a with
  | zero => rfl
  | succ k ih =>
    show (a :: runInts (a + 1) k).length = k + 1
    simp only [List.length_cons]
    rw [ih]

theorem getElem?_runInts (a : Int) : ∀ (k j : Nat), j < k →
    (runInts a k)[j]? = some (a + j) := by
  intro k
  induction k generalizing a with
  | zero =>
    intro j h
    exact absurd h (by omega)
  | succ k ih =>
    intro j h
    cases j with
    | zero =>
      show (a :: runInts (a + 1) k)[0]? = some (a + ((0 : Nat) : Int))
      simp
    | succ j =>
      show (a :: runInts (a + 1) k)[j + 1]? = some (a + ((j + 1 : Nat) : Int))
      rw [List.getElem?_cons_succ, ih (a + 1) j (by omega)]
      congr 1
      push_cast
      ring

theorem getElem?_map_runInts (a : Int) (k j : Nat) (h : j < k) :
    ((runInts a k).map Tok.num)[j]? = some (Tok.num (a + j)) := by
  rw [List.getElem?_map, getElem?_runInts a k j h]
  rfl

theorem lt_length_of_getElem?_some {l : List Tok} {i : Nat} {t : Tok}
    (h : l[i]? = some t) : i < l.length := by
  by_contra hcon
  push_neg at hcon
  rw [List.getElem?_eq_none hcon] at h
  simp at h

theorem hasRun_of_endsWithRun {l : List Tok} {a : Int} {n : Nat}
    (h : endsWithRun l a n) : hasRun l a n := by
  obtain ⟨pre, rfl⟩ := h
  refine ⟨pre.length, ?_⟩
  intro j hj
  rw [List.getElem?_append_right (by omega),
    show pre.length + j - pre.length = j from by omega]
  exact getElem?_map_runInts a n j hj

theorem endsWithRun_last {l : List Tok} {a : Int} {m : Nat}
    (h : endsWithRun l a (m + 1)) : l.getLast? = some (Tok.num (a + m)) := by
  obtain ⟨pre, rfl⟩ := h
  rw [List.getLast?_append, List.getLast?_map, getLast?_runInts a (m + 1) (by omega),
    Option.map_some']
  show some (Tok.num (a + ((m + 1 : Nat) : Int) - 1)) = some (Tok.num (a + (m : Int)))
  congr 2
  push_cast
  ring

theorem endsWithRun_push {l : List Tok} {a : Int} {n : Nat}
    (h : endsWithRun l a n) :
    endsWithRun (l ++ [Tok.num (a + n)]) a (n + 1) := by
  obtain ⟨pre, rfl⟩ := h
  refine ⟨pre, ?_⟩
  rw [runInts_concat]
  simp [List.append_assoc]

theorem endsWithRun_one_of_getLast? {l : List Tok} {a : Int}
    (h : l.getLast? = some (Tok.num a)) : endsWithRun l a 1 := by
  refine ⟨l.dropLast, ?_⟩
  have hsplit := List.dropLast_append_getLast? (l := l) (Tok.num a)
    (by simp [Option.mem_def, h])
  rw [show (runInts a 1).map Tok.num = [Tok.num a] from rfl]
  exact hsplit.symm

theorem fixSmallGap_endsWithRun {l : List Tok} {a : Int} {n : Nat}
    (h : endsWithRun l a n) : endsWithRun (fixSmallGap l) a n := by
  unfold fixSmallGap
  split
  · rename_i hc
    obtain ⟨pre, rfl⟩ := h
    have hpre : 1 < pre.length := by
      by_contra hp
      push_neg at hp
      have hc1 := hc.1
      rw [List.getElem?_append_right (by omega), List.getElem?_map] at hc1
      rcases hx : (runInts a n)[1 - pre.length]? with _ | x
      · rw [hx] at hc1
        simp at hc1
      · rw [hx] at hc1
        simp at hc1
    rw [List.set_append, if_pos hpre]
    exact ⟨pre.set 1 (Tok.num 2), rfl⟩
  · exact h

theorem insertIdx_append_left {α : Type} (x : α) :
    ∀ (g : Nat) (s t : List α), g ≤ s.length →
      (s ++ t).insertIdx g x = s.insertIdx g x ++ t := by
  intro g
  induction g with
  | zero =>
    intro s t h
    rw [List.insertIdx_zero, List.insertIdx_zero, List.cons_append]
  | succ g ih =>
    intro s t h
    cases s with
    | nil => simp at h
    | cons b s =>
      rw [List.cons_append, List.insertIdx_succ_cons, List.insertIdx_succ_cons,
        ih s t (by simp at h; omega), List.cons_append]

theorem endsWithRun_insertIdx {l : List Tok} {a : Int} {n : Nat} (x : Tok) {g : Nat}
    (h : endsWithRun l a n) (hg : g + n ≤ l.length) :
    endsWithRun (l.insertIdx g x) a n := by
  obtain ⟨pre, rfl⟩ := h
  have hlen : (pre ++ (runInts a n).map Tok.num).length = pre.length + n := by
    simp [length_runInts]
  rw [insertIdx_append_left x g pre _ (by omega)]
  exact ⟨pre.insertIdx g x, rfl⟩

theorem discontAt_false_of_consecutive {l : List Tok} {i : Nat} {x : Int}
    (h1 : l[i]? = some (Tok.num x)) (h2 : l[i + 1]? = some (Tok.num (x + 1))) :
    discontAt l i = false := by
  unfold discontAt
  rw [h1, h2]
  simp

theorem endsWithRun_getElem? {l : List Tok} {a : Int} {n : Nat}
    (h : endsWithRun l a n) {j : Nat} (hj : j < n) :
    l[l.length - n + j]? = some (Tok.num (a + j)) := by
  obtain ⟨pre, rfl⟩ := h
  have hlen : (pre ++ (runInts a n).map Tok.num).length = pre.length + n := by
    simp [length_runInts]
  rw [hlen, show pre.length + n - n + j = pre.length + j from by omega,
    List.getElem?_append_right (by omega),
    show pre.length + j - pre.length = j from by omega]
  exact getElem?_map_runInts a n j hj

theorem discontAt_false_of_endsWithRun {l : List Tok} {a : Int} {n : Nat}
    (h : endsWithRun l a n) {i : Nat} (h1 : l.length - n ≤ i) (h2 : i + 1 < l.length) :
    discontAt l i = false := by
  obtain ⟨pre, hpre⟩ := h
  have hlen : l.length = pre.length + n := by
    rw [hpre]
    simp [length_runInts]
  have e1 := endsWithRun_getElem? (⟨pre, hpre⟩ : endsWithRun l a n)
    (show i - (l.length - n) < n from by omega)
  have e2 := endsWithRun_getElem? (⟨pre, hpre⟩ : endsWithRun l a n)
    (show i + 1 - (l.length - n) < n from by omega)
  rw [show l.length - n + (i - (l.length - n)) = i from by omega] at e1
  rw [show l.length - n + (i + 1 - (l.length - n)) = i + 1 from by omega] at e2
  refine discontAt_false_of_consecutive e1 ?_
  rw [e2]
  congr 2
  omega

theorem gapScanFrom_discont (l : List Tok) :
    ∀ i g, gapScanFrom l i = some g → discontAt l (g - 1) = true := by
  intro i
  induction i with
  | zero =>
    intro g h
    unfold gapScanFrom at h
    split at h
    · rename_i hd
      simp only [Option.some.injEq] at h
      subst h
      simpa using hd
    · simp at h
  | succ i ih =>
    intro g h
    unfold gapScanFrom at h
    split at h
    · rename_i hd
      simp only [Option.some.injEq] at h
      subst h
      simpa using hd
    · exact ih g h

theorem gapScan_discont {l : List Tok} {g : Nat} (h : gapScan l = some g) :
    discontAt l (g - 1) = true := by
  unfold gapScan at h
  split at h
  · exact gapScanFrom_discont l _ g h
  · simp at h

/-!  Preservation of an interior run of consecutive page numbers.  -/

theorem hasRun_append {l : List Tok} {a : Int} {n : Nat} (h : hasRun l a n)
    (t : List Tok) : hasRun (l ++ t) a n := by
  obtain ⟨i, hi⟩ := h
  refine ⟨i, ?_⟩
  intro j hj
  have hij := hi j hj
  rw [List.getElem?_append_left (lt_length_of_getElem?_some hij)]
  exact hij

theorem hasRun_dropLast_of_gapLast {l : List Tok} {a : Int} {n : Nat}
    (h : hasRun l a n) (hg : l.getLast? = some Tok.gap) :
    hasRun l.dropLast a n := by
  obtain ⟨i, hi⟩ := h
  refine ⟨i, ?_⟩
  intro j hj
  have hij := hi j hj
  have hlt : i + j < l.length := lt_length_of_getElem?_some hij
  have hne : i + j ≠ l.length - 1 := by
    intro hcon
    rw [List.getLast?_eq_getElem?, ← hcon, hij] at hg
    simp at hg
  rw [List.getElem?_dropLast, if_pos (by omega)]
  exact hij

theorem getElem?_insertIdx_of_lt {α : Type} (x : α) :
    ∀ (g : Nat) (l : List α) (k : Nat), k < g → g ≤ l.length →
      (l.insertIdx g x)[k]? = l[k]? := by
  intro g
  induction g with
  | zero =>
    intro l k hk _
    exact absurd hk (by omega)
  | succ g ih =>
    intro l k hk hgl
    cases l with
    | nil => simp at hgl
    | cons b l =>
      rw [List.insertIdx_succ_cons]
      cases k with
      | zero => simp
      | succ k =>
        rw [List.getElem?_cons_succ, List.getElem?_cons_succ]
        exact ih l k (by omega) (by simp at hgl; omega)

theorem getElem?_insertIdx_shift {α : Type} (x : α) :
    ∀ (g : Nat) (l : List α) (i : Nat), g ≤ i →
      (l.insertIdx g x)[i + 1]? = l[i]? := by
  intro g
  induction g with
  | zero =>
    intro l i _
    rw [List.insertIdx_zero, List.getElem?_cons_succ]
  | succ g ih =>
    intro l i hg
    cases l with
    | nil =>
      rw [List.insertIdx_succ_nil]
      simp
    | cons b l =>
      rw [List.insertIdx_succ_cons]
      cases i with
      | zero => exact absurd hg (by omega)
      | succ i =>
        rw [List.getElem?_cons_succ, List.getElem?_cons_succ]
        exact ih l i (by omega)

theorem hasRun_insertIdx_gapScan {l : List Tok} {a : Int} {n : Nat} {g : Nat}
    (h : hasRun l a n) (hg : gapScan l = some g) :
    hasRun (l.insertIdx g Tok.gap) a n := by
  obtain ⟨i, hi⟩ := h
  obtain ⟨hg1, hg2, hg3⟩ := gapScan_bounds hg
  by_cases hcase1 : g ≤ i
  · refine ⟨i + 1, ?_⟩
    intro j hj
    have hij := hi j hj
    rw [show i + 1 + j = (i + j) + 1 from by omega,
      getElem?_insertIdx_shift Tok.gap g l (i + j) (by omega)]
    exact hij
  · by_cases hcase2 : i + n ≤ g
    · refine ⟨i, ?_⟩
      intro j hj
      have hij := hi j hj
      rw [getElem?_insertIdx_of_lt Tok.gap g l (i + j) (by omega) (by omega)]
      exact hij
    · exfalso
      push_neg at hcase1 hcase2
      have e1 := hi (g - 1 - i) (by omega)
      have e2 := hi (g - i) (by omega)
      rw [show i + (g - 1 - i) = g - 1 from by omega] at e1
      rw [show i + (g - i) = g from by omega] at e2
      have hd := gapScan_discont hg
      have hfalse : discontAt l (g - 1) = false := by
        refine discontAt_false_of_consecutive e1 ?_
        rw [show g - 1 + 1 = g from by omega, e2]
        congr 2
        omega
      rw [hfalse] at hd
      simp at hd

theorem hasRun_fixSmallGap {l : List Tok} {a : Int} {n : Nat} (h : hasRun l a n) :
    hasRun (fixSmallGap l) a n := by
  unfold fixSmallGap
  split
  · rename_i hc
    obtain ⟨i, hi⟩ := h
    refine ⟨i, ?_⟩
    intro j hj
    have hij := hi j hj
    have hne : i + j ≠ 1 := by
      intro hcon
      rw [hcon, hc.1] at hij
      simp at hij
    rw [List.getElem?_set_ne (by omega)]
    exact hij
  · exact h

/-- addPage preserves any interior run of consecutive page numbers: the
collapse only rewrites the trailing gap, the re-opened gap is never inserted
inside a run because a run has no discontinuity, and the small-gap fix only
rewrites a gap slot. -/
theorem addPage_hasRun {pag : List Tok} {a : Int} {n : Nat} (h : hasRun pag a n)
    (page pos : Int) : hasRun (addPage pag page pos) a n := by
  unfold addPage
  refine hasRun_fixSmallGap ?_
  split
  · rename_i hcol
    have hB : hasRun (collapseList pag page) a n := by
      unfold collapseList
      exact hasRun_append (hasRun_dropLast_of_gapLast h hcol.1) _
    split
    · split
      · rename_i g hg
        exact hasRun_insertIdx_gapScan hB hg
      · exact hB
    · exact hB
  · split
    · exact hasRun_append h _
    · exact h

/-!  The window phase: the run of near-current pages grows at the end.  -/

theorem addPage_push_eq {pag : List Tok} {q : Int}
    (hlast : pag.getLast? = some (Tok.num q)) {page : Int} (hne : q ≠ page)
    (pos : Int) : addPage pag page pos = fixSmallGap (pag ++ [Tok.num page]) := by
  unfold addPage
  have hC1 : ¬(pag.getLast? = some Tok.gap ∧
      secondLast? pag = some (Tok.num (page - 2))) := by
    intro hc
    rw [hlast] at hc
    simp at hc
  have hC2 : pag.getLast? ≠ some (Tok.num page) := by
    rw [hlast]
    intro hc
    simp only [Option.some.injEq, Tok.num.injEq] at hc
    exact hne hc
  rw [if_neg hC1, if_pos hC2]

theorem addPage_collapse_eq {pag : List Tok} {page : Int}
    (h1 : pag.getLast? = some Tok.gap)
    (h2 : secondLast? pag = some (Tok.num (page - 2))) {pos : Int} (hpos : pos < 1) :
    addPage pag page pos = fixSmallGap
      (match gapScan (collapseList pag page) with
       | some g => (collapseList pag page).insertIdx g Tok.gap
       | none => collapseList pag page) := by
  unfold addPage
  rw [if_pos ⟨h1, h2⟩, if_pos hpos]

theorem collapseList_endsWithRun {pag : List Tok} {lo page : Int} {n : Nat}
    (h : endsWithRun pag.dropLast lo n) (hval : lo + n = page - 1) :
    endsWithRun (collapseList pag page) lo (n + 2) := by
  obtain ⟨pre, hpre⟩ := h
  refine ⟨pre, ?_⟩
  unfold collapseList
  rw [hpre]
  have hr : (runInts lo (n + 2)).map Tok.num =
      (runInts lo n).map Tok.num ++ [Tok.num (page - 1), Tok.num page] := by
    rw [show n + 2 = (n + 1) + 1 from rfl, runInts_concat, runInts_concat]
    simp only [List.map_append, List.map_cons, List.map_nil]
    have e2 : lo + ((n + 1 : Nat) : Int) = page := by push_cast; omega
    rw [hval, e2]
    simp
  rw [hr, List.append_assoc]

/-- One loop step inside the window preserves the window invariant. -/
theorem stepPage_preserves_WinInv (ctx : Ctx) (hjne : ctx.jumps ≠ [])
    (hjpos : ∀ j ∈ ctx.jumps, 0 < j) (hcur : 1 ≤ ctx.current)
    (hcm : ctx.current ≤ ctx.max) {page : Int} {pag : List Tok}
    (hlo : winLo ctx < page) (hhi : page ≤ winHi ctx)
    (hlen : LenInv ctx page pag) (hwin : WinInv ctx page pag) :
    WinInv ctx (page + 1) (stepPage ctx pag page) := by
  have hwlo : winLo ctx = max 1 (ctx.current - ctx.pad) := rfl
  have hwhi : winHi ctx = min ctx.max (ctx.current + ctx.pad) := rfl
  obtain ⟨hstart, hM, htrail, hlenA, hlenB, hlenC, hlenD⟩ := hlen
  rcases hwin with hrun | ⟨hpc, hdrop, hlastg, hsec⟩
  · obtain ⟨m, hm⟩ : ∃ m, (page - winLo ctx).toNat = m + 1 :=
      ⟨(page - winLo ctx).toNat - 1, by omega⟩
    rw [hm] at hrun
    have hlast : pag.getLast? = some (Tok.num (winLo ctx + m)) := endsWithRun_last hrun
    have hlast2 : pag.getLast? = some (Tok.num (page - 1)) := by
      rw [hlast]
      congr 2
      omega
    unfold stepPage
    split
    · rename_i hb1
      rw [addPage_push_eq hlast2 (by omega) 0]
      left
      refine fixSmallGap_endsWithRun ?_
      have hext := endsWithRun_push hrun
      rw [show winLo ctx + ((m + 1 : Nat) : Int) = page from by push_cast; omega] at hext
      rw [show (page + 1 - winLo ctx).toNat = (m + 1) + 1 from by omega]
      exact hext
    · rename_i hb1
      split
      · rename_i hbatch
        obtain ⟨hplt, hnogap, hlenb, hpad⟩ := hbatch
        have hMM : ∀ v ∈ chainRaw ctx, 1 < v → Tok.num v ∈ pag := by
          by_cases hpg : 3 ≤ page
          · exact hM hpg (by omega) hpad
          · intro v hv h1
            have hv1 := chainRaw_le_one ctx hjne hjpos (by omega) v hv
            exact absurd h1 (by omega)
        rw [leftBatch_eq_of_chainMem ctx pag hMM]
        right
        refine ⟨by omega, ?_, List.getLast?_concat _, ?_⟩
        · rw [List.dropLast_concat,
            show (page + 1 - 1 - winLo ctx).toNat = m + 1 from by omega]
          exact hrun
        · rw [secondLast?_concat, hlast2]
          congr 2
          omega
      · rename_i hbatch
        split
        · rename_i hmid
          rw [addPage_push_eq hlast2 (by omega) 0]
          left
          refine fixSmallGap_endsWithRun ?_
          have hext := endsWithRun_push hrun
          rw [show winLo ctx + ((m + 1 : Nat) : Int) = page from by push_cast; omega]
            at hext
          rw [show (page + 1 - winLo ctx).toNat = (m + 1) + 1 from by omega]
          exact hext
        · rename_i hmid
          exfalso
          exact hmid ⟨by omega, by omega⟩
  · have hgmem : Tok.gap ∈ pag := mem_of_getLast? hlastg
    have hcoll : ∀ pos : Int, pos < 1 → WinInv ctx (page + 1) (addPage pag page pos) := by
      intro pos hpos
      rw [addPage_collapse_eq hlastg hsec hpos]
      left
      have hB : endsWithRun (collapseList pag page) (winLo ctx)
          ((page - 1 - winLo ctx).toNat + 2) :=
        collapseList_endsWithRun hdrop (by omega)
      rw [show (page + 1 - winLo ctx).toNat = (page - 1 - winLo ctx).toNat + 2
        from by omega]
      split
      · rename_i g hg
        refine fixSmallGap_endsWithRun ?_
        refine endsWithRun_insertIdx Tok.gap hB ?_
        by_contra hcon
        push_neg at hcon
        obtain ⟨hg1, hg2, hg3⟩ := gapScan_bounds hg
        have hd := gapScan_discont hg
        have hfalse := discontAt_false_of_endsWithRun hB
          (show (collapseList pag page).length -
            ((page - 1 - winLo ctx).toNat + 2) ≤ g - 1 from by omega)
          (show g - 1 + 1 < (collapseList pag page).length from by omega)
        rw [hfalse] at hd
        simp at hd
      · exact fixSmallGap_endsWithRun hB
    unfold stepPage
    split
    · exact hcoll 0 (by omega)
    · split
      · rename_i hbatch
        exact absurd hgmem hbatch.2.1
      · split
        · exact hcoll 0 (by omega)
        · rename_i hbatch hmid
          exfalso
          exact hmid ⟨by omega, by omega⟩

/-- The window invariant propagates across the window. -/
theorem foldl_stepPage_WinInv (ctx : Ctx) (hjne : ctx.jumps ≠ [])
    (hjpos : ∀ j ∈ ctx.jumps, 0 < j) (hcur : 1 ≤ ctx.current)
    (hcm : ctx.current ≤ ctx.max)
    (hcomplex : (minPagesForComplex ctx.pad : Int) ≤ ctx.max) :
    ∀ (k : Nat) (p : Int) (pag : List Tok), winLo ctx < p → p + k ≤ winHi ctx + 1 →
      LoopInv ctx p pag → LenInv ctx p pag → WinInv ctx p pag →
      WinInv ctx (p + k) ((runInts p k).foldl (stepPage ctx) pag) := by
  intro k
  induction k with
  | zero =>
    intro p pag _ _ _ _ h
    simpa [runInts] using h
  | succ k ih =>
    intro p pag hlo hpk hbase hlen hwin
    rw [show runInts p (k + 1) = p :: runInts (p + 1) k from rfl, List.foldl_cons]
    have hwlo : winLo ctx = max 1 (ctx.current - ctx.pad) := rfl
    have hwhi : winHi ctx = min ctx.max (ctx.current + ctx.pad) := rfl
    have hhi : p ≤ winHi ctx := by omega
    have hp2 : 2 ≤ p := by omega
    have hpmax : p ≤ ctx.max := by omega
    have hbase2 := stepPage_preserves_LoopInv ctx hcur hbase
    have hlen2 := stepPage_preserves_LenInv ctx hcur hcm hcomplex hp2 hpmax hbase hlen
    have hwin2 := stepPage_preserves_WinInv ctx hjne hjpos hcur hcm hlo hhi hlen hwin
    have h3 := ih (p + 1) _ (by omega) (by omega) hbase2 hlen2 hwin2
    have harith : p + ((k : Nat) + 1 : Nat) = (p + 1) + (k : Int) := by
      push_cast
      ring
    rw [harith]
    exact h3

/-!  Right of the window every step preserves the interior run.  -/

theorem stepPage_preserves_hasRun (ctx : Ctx) (hcm : ctx.current ≤ ctx.max)
    {page : Int} {pag : List Tok} (hgt : winHi ctx < page) (hpmax : page ≤ ctx.max)
    {a : Int} {n : Nat} (h : hasRun pag a n) :
    hasRun (stepPage ctx pag page) a n := by
  have hwhi : winHi ctx = min ctx.max (ctx.current + ctx.pad) := rfl
  unfold stepPage
  split
  · exact addPage_hasRun h page 0
  · split
    · rename_i hbatch
      exfalso
      have hplt := hbatch.1
      omega
    · split
      · rename_i hmid
        exfalso
        omega
      · split
        · split
          · exact hasRun_append h _
          · split
            · split
              · exact addPage_hasRun h _ 1
              · exact addPage_hasRun h _ 1
            · exact h
        · exact h

theorem foldl_stepPage_hasRun (ctx : Ctx) (hcm : ctx.current ≤ ctx.max)
    {a : Int} {n : Nat} :
    ∀ (k : Nat) (p : Int) (pag : List Tok), winHi ctx < p → p + k ≤ ctx.max + 1 →
      hasRun pag a n → hasRun ((runInts p k).foldl (stepPage ctx) pag) a n := by
  intro k
  induction k with
  | zero =>
    intro p pag _ _ h
    simpa [runInts] using h
  | succ k ih =>
    intro p pag hgt hpk h
    rw [show runInts p (k + 1) = p :: runInts (p + 1) k from rfl, List.foldl_cons]
    have h2 := stepPage_preserves_hasRun ctx hcm hgt (by omega) h
    exact ih (p + 1) _ (by omega) (by omega) h2

/-!  Left of the window the state is frozen.  -/

theorem stepPage_id_padzero (ctx : Ctx) (hpad : ctx.pad = 0)
    (hcm : ctx.current ≤ ctx.max) {page : Int} (h2 : 2 ≤ page)
    (hlt : page < ctx.current) :
    stepPage ctx [Tok.num 1] page = [Tok.num 1] := by
  have hb1 : ¬(page = 1 ∨ page = ctx.max ∨ page = ctx.current) := by
    push_neg
    refine ⟨by omega, by omega, by omega⟩
  have hbatch : ¬(page < ctx.current ∧ Tok.gap ∉ [Tok.num 1] ∧
      [Tok.num 1].length < ctx.pad + 2 ∧ 0 < ctx.pad) := by
    intro hc
    exact absurd hc.2.2.2 (by omega)
  have hmid : ¬(ctx.current - ctx.pad ≤ page ∧ page ≤ ctx.current + ctx.pad) := by
    intro hc
    omega
  have hgt : ¬(ctx.current < page) := by omega
  unfold stepPage
  rw [if_neg hb1, if_neg hbatch, if_neg hmid, if_neg hgt]

theorem stepPage_id_gap (ctx : Ctx) (hcm : ctx.current ≤ ctx.max) {pag : List Tok}
    (hg : Tok.gap ∈ pag) {page : Int} (h2 : 2 ≤ page)
    (hlt : page < ctx.current - ctx.pad) :
    stepPage ctx pag page = pag := by
  have hb1 : ¬(page = 1 ∨ page = ctx.max ∨ page = ctx.current) := by
    push_neg
    refine ⟨by omega, by omega, by omega⟩
  have hbatch : ¬(page < ctx.current ∧ Tok.gap ∉ pag ∧
      pag.length < ctx.pad + 2 ∧ 0 < ctx.pad) := by
    intro hc
    exact hc.2.1 hg
  have hmid : ¬(ctx.current - ctx.pad ≤ page ∧ page ≤ ctx.current + ctx.pad) := by
    intro hc
    omega
  have hgt : ¬(ctx.current < page) := by omega
  unfold stepPage
  rw [if_neg hb1, if_neg hbatch, if_neg hmid, if_neg hgt]

theorem foldl_id_padzero (ctx : Ctx) (hpad : ctx.pad = 0)
    (hcm : ctx.current ≤ ctx.max) :
    ∀ (k : Nat) (p : Int), 2 ≤ p → p + k ≤ ctx.current →
      (runInts p k).foldl (stepPage ctx) [Tok.num 1] = [Tok.num 1] := by
  intro k
  induction k with
  | zero => intro p _ _; rfl
  | succ k ih =>
    intro p h2 hpk
    rw [show runInts p (k + 1) = p :: runInts (p + 1) k from rfl, List.foldl_cons,
      stepPage_id_padzero ctx hpad hcm h2 (by omega)]
    exact ih (p + 1) (by omega) (by omega)

theorem foldl_id_gap (ctx : Ctx) (hcm : ctx.current ≤ ctx.max) {pag : List Tok}
    (hg : Tok.gap ∈ pag) :
    ∀ (k : Nat) (p : Int), 2 ≤ p → p + k ≤ ctx.current - ctx.pad →
      (runInts p k).foldl (stepPage ctx) pag = pag := by
  intro k
  induction k with
  | zero => intro p _ _; rfl
  | succ k ih =>
    intro p h2 hpk
    rw [show runInts p (k + 1) = p :: runInts (p + 1) k from rfl, List.foldl_cons,
      stepPage_id_gap ctx hcm hg h2 (by omega)]
    exact ih (p + 1) (by omega) (by omega)

theorem gap_mem_leftBatch (ctx : Ctx) (pag : List Tok) :
    Tok.gap ∈ leftBatch ctx pag := by
  have hrfl : leftBatch ctx pag =
      (((chainRaw ctx).filter (fun v => 1 < v ∧ Tok.num v ∉ pag)).reverse.foldl
        (fun acc p => addPage acc p (-1)) pag) ++ [Tok.gap] := rfl
  rw [hrfl]
  exact List.mem_append_right _ (by simp)

/-- After scanning pages two up to the window's lower edge the invariant of
the window phase holds: with a lower edge of one nothing has happened yet;
with pad zero the state stays the single first page until current is appended;
otherwise the left batch runs at page two, the state freezes until the lower
edge, and the append there leaves the first window page last. -/
theorem winInv_established (ctx : Ctx) (hjne : ctx.jumps ≠ [])
    (hjpos : ∀ j ∈ ctx.jumps, 0 < j) (hcur : 1 ≤ ctx.current)
    (hcm : ctx.current ≤ ctx.max)
    (hcomplex : (minPagesForComplex ctx.pad : Int) ≤ ctx.max) :
    WinInv ctx (winLo ctx + 1)
      ((runInts 2 (winLo ctx - 1).toNat).foldl (stepPage ctx) [Tok.num 1]) := by
  have hwlo : winLo ctx = max 1 (ctx.current - ctx.pad) := rfl
  have hmpc : (minPagesForComplex ctx.pad : Int) = 7 + 4 * (ctx.pad : Int) := by
    unfold minPagesForComplex
    push_cast
    ring
  by_cases hlo1 : winLo ctx = 1
  · rw [show (winLo ctx - 1).toNat = 0 from by omega]
    left
    rw [show (winLo ctx + 1 - winLo ctx).toNat = 1 from by omega]
    refine endsWithRun_one_of_getLast? ?_
    rw [hlo1]
    rfl
  · have hlo2 : 2 ≤ winLo ctx := by omega
    by_cases hpad : ctx.pad = 0
    · have hwc : winLo ctx = ctx.current := by omega
      obtain ⟨k2, hk2⟩ : ∃ k2, (winLo ctx - 1).toNat = k2 + 1 :=
        ⟨(winLo ctx - 1).toNat - 1, by omega⟩
      rw [hk2, runInts_concat, List.foldl_append,
        foldl_id_padzero ctx hpad hcm k2 2 (by omega) (by omega),
        List.foldl_cons, List.foldl_nil]
      have hpage : (2 : Int) + k2 = ctx.current := by omega
      rw [hpage]
      rw [show stepPage ctx [Tok.num 1] ctx.current =
        addPage [Tok.num 1] ctx.current 0 from by
          unfold stepPage
          rw [if_pos (Or.inr (Or.inr rfl))]]
      left
      rw [show (winLo ctx + 1 - winLo ctx).toNat = 1 from by omega]
      refine endsWithRun_one_of_getLast? ?_
      rw [addPage_getLast?]
      congr 2
      omega
    · have hpad1 : 1 ≤ ctx.pad := by omega
      have hwc : winLo ctx = ctx.current - ctx.pad := by omega
      have hcur3 : 3 ≤ ctx.current := by omega
      have hstep2 : stepPage ctx [Tok.num 1] 2 = leftBatch ctx [Tok.num 1] := by
        have hb1 : ¬((2 : Int) = 1 ∨ (2 : Int) = ctx.max ∨ (2 : Int) = ctx.current) := by
          push_neg
          refine ⟨by omega, by omega, by omega⟩
        have hbt : (2 : Int) < ctx.current ∧ Tok.gap ∉ [Tok.num 1] ∧
            [Tok.num 1].length < ctx.pad + 2 ∧ 0 < ctx.pad := by
          refine ⟨by omega, by decide, ?_, by omega⟩
          simp only [List.length_cons, List.length_nil]
          omega
        unfold stepPage
        rw [if_neg hb1, if_pos hbt]
      by_cases hloeq2 : winLo ctx = 2
      · rw [show (winLo ctx - 1).toNat = 1 from by omega,
          show runInts 2 1 = [(2 : Int)] from rfl,
          List.foldl_cons, List.foldl_nil, hstep2]
        have hBeq : leftBatch ctx [Tok.num 1] = [Tok.num 1] ++ [Tok.gap] := by
          refine leftBatch_eq_of_chainMem ctx [Tok.num 1] ?_
          intro v hv h1
          have := chainRaw_le_one ctx hjne hjpos (by omega) v hv
          exact absurd h1 (by omega)
        rw [hBeq]
        right
        refine ⟨by omega, ?_, List.getLast?_concat _, ?_⟩
        · rw [List.dropLast_concat,
            show (winLo ctx + 1 - 1 - winLo ctx).toNat = 0 from by omega]
          exact ⟨[Tok.num 1], by simp [runInts]⟩
        · rw [secondLast?_concat]
          show some (Tok.num 1) = some (Tok.num (winLo ctx + 1 - 2))
          congr 2
          omega
      · have hlo3 : 3 ≤ winLo ctx := by omega
        obtain ⟨k2, hk2⟩ : ∃ k2, (winLo ctx - 1).toNat = 1 + (k2 + 1) :=
          ⟨(winLo ctx - 1).toNat - 2, by omega⟩
        rw [hk2, runInts_append 2 1 (k2 + 1), List.foldl_append,
          show runInts 2 1 = [(2 : Int)] from rfl, List.foldl_cons, List.foldl_nil,
          hstep2]
        rw [show (2 : Int) + ((1 : Nat) : Int) = 3 from by norm_num]
        rw [runInts_concat, List.foldl_append,
          foldl_id_gap ctx hcm (gap_mem_leftBatch ctx [Tok.num 1]) k2 3
            (by omega) (by omega),
          List.foldl_cons, List.foldl_nil]
        have hpage : (3 : Int) + k2 = winLo ctx := by omega
        rw [hpage]
        have hstepw : stepPage ctx (leftBatch ctx [Tok.num 1]) (winLo ctx) =
            addPage (leftBatch ctx [Tok.num 1]) (winLo ctx) 0 := by
          have hb1 : ¬(winLo ctx = 1 ∨ winLo ctx = ctx.max ∨ winLo ctx = ctx.current) := by
            push_neg
            refine ⟨by omega, by omega, by omega⟩
          have hbatch : ¬(winLo ctx < ctx.current ∧
              Tok.gap ∉ leftBatch ctx [Tok.num 1] ∧
              (leftBatch ctx [Tok.num 1]).length < ctx.pad + 2 ∧ 0 < ctx.pad) := by
            intro hc
            exact hc.2.1 (gap_mem_leftBatch ctx [Tok.num 1])
          have hmid : ctx.current - ctx.pad ≤ winLo ctx ∧
              winLo ctx ≤ ctx.current + ctx.pad := ⟨by omega, by omega⟩
          unfold stepPage
          rw [if_neg hb1, if_neg hbatch, if_pos hmid]
        rw [hstepw]
        left
        rw [show (winLo ctx + 1 - winLo ctx).toNat = 1 from by omega]
        exact endsWithRun_one_of_getLast? (addPage_getLast? _ _ _)

/-- C2.  For every valid request the near-current window, from the larger of
one and current minus pad to the smaller of max and current plus pad, appears
in the returned pages as consecutive tokens in ascending order: from some
index on, each window page sits right after its predecessor, so no gap symbol
and no other token stands between any two of them. -/
theorem c2_window_contiguous {o : PaginationOptions} {r : PaginationResult}
    (h : generatePagination o = Except.ok r) :
    hasRun r.pages (max 1 (o.current - o.pad.getD DEFAULT_PAD))
      ((min o.max (o.current + o.pad.getD DEFAULT_PAD) + 1 -
        max 1 (o.current - o.pad.getD DEFAULT_PAD)).toNat) := by
  obtain ⟨h1, h2, hp, hj1, hj2, hr⟩ := generatePagination_ok h
  subst hr
  have hpadeq : (((o.pad.getD DEFAULT_PAD).toNat : Nat) : Int) = o.pad.getD DEFAULT_PAD :=
    Int.toNat_of_nonneg hp
  show hasRun (generatePaginationArray o.current o.max
      (o.pad.getD DEFAULT_PAD).toNat (o.jumpValues.getD DEFAULT_JUMP_VALUES)) _ _
  unfold generatePaginationArray
  split
  · rename_i hsimple
    refine ⟨(max 1 (o.current - o.pad.getD DEFAULT_PAD) - 1).toNat, ?_⟩
    intro j hj
    rw [pageList_eq_runInts, getElem?_map_runInts 1 o.max.toNat _ (by omega)]
    congr 2
    omega
  · rename_i hcomplex
    push_neg at hcomplex
    rw [pageList_eq_runInts]
    set ctx : Ctx := ⟨o.current, o.max, (o.pad.getD DEFAULT_PAD).toNat,
      o.jumpValues.getD DEFAULT_JUMP_VALUES⟩ with hctx
    have hctxc : ctx.current = o.current := rfl
    have hctxm : ctx.max = o.max := rfl
    have hctxp : ((ctx.pad : Nat) : Int) = o.pad.getD DEFAULT_PAD := hpadeq
    have hcomplex2 : (minPagesForComplex ctx.pad : Int) ≤ ctx.max := hcomplex
    have hmpc2 : (minPagesForComplex ctx.pad : Int) = 7 + 4 * (ctx.pad : Int) := by
      unfold minPagesForComplex
      push_cast
      ring
    have hwlo : winLo ctx = max 1 (ctx.current - ctx.pad) := rfl
    have hwhi : winHi ctx = min ctx.max (ctx.current + ctx.pad) := rfl
    have hm7 : (7 : Int) ≤ o.max := by omega
    have hlo_eq : max 1 (o.current - o.pad.getD DEFAULT_PAD) = winLo ctx := by
      rw [hwlo, hctxc, hctxp]
    have hhi_eq : min o.max (o.current + o.pad.getD DEFAULT_PAD) = winHi ctx := by
      rw [hwhi, hctxc, hctxm, hctxp]
    rw [hlo_eq, hhi_eq]
    obtain ⟨k, hk⟩ : ∃ k, o.max.toNat = k + 1 := ⟨o.max.toNat - 1, by omega⟩
    rw [hk, show runInts 1 (k + 1) = 1 :: runInts 2 k from rfl, List.foldl_cons,
      stepPage_one]
    have hsplit : k = (winLo ctx - 1).toNat +
        ((winHi ctx - winLo ctx).toNat + (ctx.max - winHi ctx).toNat) := by omega
    rw [hsplit, runInts_append, List.foldl_append, runInts_append, List.foldl_append]
    have he1 : (2 : Int) + ((winLo ctx - 1).toNat : Int) = winLo ctx + 1 := by omega
    rw [he1]
    have he2 : winLo ctx + 1 + ((winHi ctx - winLo ctx).toNat : Int) =
        winHi ctx + 1 := by omega
    rw [he2]
    have hinv0 : LoopInv ctx 2 [Tok.num 1] := by
      refine ⟨by simp, rfl, List.chain'_singleton _, by intro hl; simp at hl, ?_⟩
      intro hlo _
      show some (Tok.num 1) = some (Tok.num (2 - 1))
      norm_num
    have hlen0 : LenInv ctx 2 [Tok.num 1] := by
      refine ⟨fun _ => rfl, ?_, ?_, ?_, ?_, ?_, ?_⟩
      · intro h3
        exact absurd h3 (by omega)
      · intro hl
        exact absurd hl (by decide)
      · intro _
        simp only [List.length_cons, List.length_nil]
        omega
      · intro hBl hBh
        exfalso
        omega
      · intro hCl hCh
        exfalso
        omega
      · intro hD
        exfalso
        omega
    have hbase1 := foldl_stepPage_LoopInv ctx h1 ((winLo ctx - 1).toNat) 2
      [Tok.num 1] hinv0
    have hlen1 := foldl_stepPage_LenInv ctx h1 h2 hcomplex2 ((winLo ctx - 1).toNat) 2
      [Tok.num 1] (by omega) (by omega) hinv0 hlen0
    rw [he1] at hbase1 hlen1
    have hwin1 := winInv_established ctx hj1 hj2 h1 h2 hcomplex2
    have hwin2 := foldl_stepPage_WinInv ctx hj1 hj2 h1 h2 hcomplex2
      ((winHi ctx - winLo ctx).toNat) (winLo ctx + 1) _ (by omega) (by omega)
      hbase1 hlen1 hwin1
    rw [he2] at hwin2
    rcases hwin2 with hrun | hgapstate
    · have hrun2 := hasRun_of_endsWithRun hrun
      exact foldl_stepPage_hasRun ctx h2 ((ctx.max - winHi ctx).toNat)
        (winHi ctx + 1) _ (by omega) (by omega) hrun2
    · exfalso
      have hpc := hgapstate.1
      omega

/-- Witness for the window claim at current 7, max 150, default options. -/
theorem c2_window_contiguous_witness :
    ∃ r, generatePagination { current := 7, max := 150 } = Except.ok r ∧
      hasRun r.pages
        (max 1 (({ current := 7, max := 150 } : PaginationOptions).current -
          ({ current := 7, max := 150 } : PaginationOptions).pad.getD DEFAULT_PAD))
        ((min ({ current := 7, max := 150 } : PaginationOptions).max
            (({ current := 7, max := 150 } : PaginationOptions).current +
              ({ current := 7, max := 150 } : PaginationOptions).pad.getD DEFAULT_PAD) + 1 -
          max 1 (({ current := 7, max := 150 } : PaginationOptions).current -
            ({ current := 7, max := 150 } : PaginationOptions).pad.getD DEFAULT_PAD)).toNat) := by
  refine ⟨_, rfl, c2_window_contiguous (o := { current := 7, max := 150 }) rfl⟩

end DeepPagination
